import Mathlib

/-!
Shallow embedding of the Reed-Solomon codec (GFmath.py and main.py) over GF(2^8),
together with proofs checking the natural-language specification against it.

Conventions of the embedding:
* Python machine integers are `Nat` (or `Int` where the source relies on signed
  arithmetic or on Python's always-nonnegative `%` for negative operands).
* Python lists are `List Nat`; in-place element assignment that is always
  in range in the source is `List.set`; element assignment or indexing that can
  raise `IndexError` for bad inputs is modelled with `pySetNat` / `pyGet`
  returning `Option`.
* Python code that raises (`ZeroDivisionError`, `IndexError`) or that prints a
  message and calls `exit(0)` is modelled as a function returning
  `Option` / `Except RSError`; the distinct `RSError` constructors record which
  failure path was taken.
-/

set_option maxRecDepth 100000

namespace RS

/-- Carryless multiplication of bit patterns, i.e. polynomial multiplication
over GF(2); embeds the inner `bit_mult` of `gf_mult_no_table`.  The source
loops over the bit positions `i` of `b`, XOR-accumulating `a << i` whenever bit
`i` of `b` is set; here this is phrased as recursion on `b` (test the low bit,
then shift `a` left and `b` right), with a structural fuel counter so that the
definition evaluates by kernel reduction; `fuel = b` bounds the loop since the
second operand at least halves each step. -/
def bit_mult_go : Nat → Nat → Nat → Nat
  | _, _, 0 => 0
  | 0, _, _ => 0
  | fuel + 1, a, b => (if b % 2 = 1 then a else 0) ^^^ bit_mult_go fuel (2 * a) (b / 2)

/-- See `bit_mult_go`. -/
def bit_mult (a b : Nat) : Nat := bit_mult_go b a b

/-- Number of bits required to represent `n`; embeds the inner `bit_length` of
`gf_mult_no_table` (the source shifts `n` right until it is zero, counting).
Same fuel device as `bit_mult_go`. -/
def bit_length_go : Nat → Nat → Nat
  | _, 0 => 0
  | 0, _ => 0
  | fuel + 1, n => bit_length_go fuel (n / 2) + 1

/-- See `bit_length_go`. -/
def bit_length (n : Nat) : Nat := bit_length_go n n

/-- The loop of `bit_div`: iterates `i` from `fuel - 1` down to `0`, XOR-ing in
the shifted divisor whenever the corresponding leading bit is set.  The source's
`dividend & (1 << (i + len_divisor - 1))` test is `Nat.testBit`. -/
def bit_div_go (divisor len_divisor : Nat) : Nat → Nat → Nat
  | dividend, 0 => dividend
  | dividend, i + 1 =>
      bit_div_go divisor len_divisor
        (if Nat.testBit dividend (i + len_divisor - 1)
         then dividend ^^^ (divisor <<< i) else dividend) i

/-- Polynomial division (remainder) over GF(2); embeds the inner `bit_div` of
`gf_mult_no_table`.  The source iterates `i` over
`range(len_dividend - len_divisor, -1, -1)`, i.e. `len_dividend - len_divisor + 1`
iterations counting down. -/
def bit_div (dividend divisor : Nat) : Nat :=
  if bit_length dividend < bit_length divisor then dividend
  else bit_div_go divisor (bit_length divisor) dividend
        (bit_length dividend - bit_length divisor + 1)

/-- Table-free GF(2^8) multiplication: carryless product reduced modulo the
primitive polynomial; embeds `gf_mult_no_table`. -/
def gf_mult_no_table (x y : Nat) (prim : Nat := 0x11d) : Nat :=
  let product := bit_mult x y
  if prim > 0 then bit_div product prim else product

/-- The table-building loop of `create_tables`: starting from `x = 1` at index
`i`, runs `count` iterations of `gf_exp[i] = x; gf_log[x] = i;
x = gf_mult_no_table(x, 2, prim)`.  All writes are in range in the source
(indices `i < 255 < 512` and values `x < 256`), so `List.set` is faithful. -/
def tables_go (prim : Nat) : Nat → Nat → List Nat → List Nat → Nat → List Nat × List Nat
  | _, _, e, l, 0 => (e, l)
  | i, x, e, l, c + 1 =>
      tables_go prim (i + 1) (gf_mult_no_table x 2 prim) (e.set i x) (l.set x i) c

/-- The extension loop of `create_tables`: for `i` in `range(255, 512)`,
`gf_exp[i] = gf_exp[i - 255]`, run sequentially (the source's loop reads
entries that the same loop may already have written, e.g. `gf_exp[510]`
reads `gf_exp[255]`). -/
def extend_go : Nat → List Nat → Nat → List Nat
  | _, e, 0 => e
  | i, e, c + 1 => extend_go (i + 1) (e.set i (e.getD (i - 255) 0)) c

/-- Builds the GF(2^8) logarithm and exponentiation tables; embeds
`create_tables` (which returns the pair `(gf_log, gf_exp)`). -/
def create_tables (prim : Nat := 0x11d) : List Nat × List Nat :=
  let el := tables_go prim 0 1 (List.replicate 512 0) (List.replicate 256 0) 255
  let e := extend_go 255 el.1 257
  (el.2, e)

/-- The module-level `gf_exp` table after `create_tables()` with the default
primitive polynomial `0x11d` (the configuration used by the repository), given
as the literal list of its 512 entries; the theorem `create_tables_eq` below
proves that `create_tables 0x11d` computes exactly this table. -/
def gf_exp : List Nat :=
  [1, 2, 4, 8, 16, 32, 64, 128, 29, 58, 116, 232, 205, 135, 19, 38, 76, 152, 45, 90, 180, 117,
   234, 201, 143, 3, 6, 12, 24, 48, 96, 192, 157, 39, 78, 156, 37, 74, 148, 53, 106, 212, 181,
   119, 238, 193, 159, 35, 70, 140, 5, 10, 20, 40, 80, 160, 93, 186, 105, 210, 185, 111, 222, 161,
   95, 190, 97, 194, 153, 47, 94, 188, 101, 202, 137, 15, 30, 60, 120, 240, 253, 231, 211, 187,
   107, 214, 177, 127, 254, 225, 223, 163, 91, 182, 113, 226, 217, 175, 67, 134, 17, 34, 68, 136,
   13, 26, 52, 104, 208, 189, 103, 206, 129, 31, 62, 124, 248, 237, 199, 147, 59, 118, 236, 197,
   151, 51, 102, 204, 133, 23, 46, 92, 184, 109, 218, 169, 79, 158, 33, 66, 132, 21, 42, 84, 168,
   77, 154, 41, 82, 164, 85, 170, 73, 146, 57, 114, 228, 213, 183, 115, 230, 209, 191, 99, 198,
   145, 63, 126, 252, 229, 215, 179, 123, 246, 241, 255, 227, 219, 171, 75, 150, 49, 98, 196, 149,
   55, 110, 220, 165, 87, 174, 65, 130, 25, 50, 100, 200, 141, 7, 14, 28, 56, 112, 224, 221, 167,
   83, 166, 81, 162, 89, 178, 121, 242, 249, 239, 195, 155, 43, 86, 172, 69, 138, 9, 18, 36, 72,
   144, 61, 122, 244, 245, 247, 243, 251, 235, 203, 139, 11, 22, 44, 88, 176, 125, 250, 233, 207,
   131, 27, 54, 108, 216, 173, 71, 142, 1, 2, 4, 8, 16, 32, 64, 128, 29, 58, 116, 232, 205, 135,
   19, 38, 76, 152, 45, 90, 180, 117, 234, 201, 143, 3, 6, 12, 24, 48, 96, 192, 157, 39, 78, 156,
   37, 74, 148, 53, 106, 212, 181, 119, 238, 193, 159, 35, 70, 140, 5, 10, 20, 40, 80, 160, 93,
   186, 105, 210, 185, 111, 222, 161, 95, 190, 97, 194, 153, 47, 94, 188, 101, 202, 137, 15, 30,
   60, 120, 240, 253, 231, 211, 187, 107, 214, 177, 127, 254, 225, 223, 163, 91, 182, 113, 226,
   217, 175, 67, 134, 17, 34, 68, 136, 13, 26, 52, 104, 208, 189, 103, 206, 129, 31, 62, 124, 248,
   237, 199, 147, 59, 118, 236, 197, 151, 51, 102, 204, 133, 23, 46, 92, 184, 109, 218, 169, 79,
   158, 33, 66, 132, 21, 42, 84, 168, 77, 154, 41, 82, 164, 85, 170, 73, 146, 57, 114, 228, 213,
   183, 115, 230, 209, 191, 99, 198, 145, 63, 126, 252, 229, 215, 179, 123, 246, 241, 255, 227,
   219, 171, 75, 150, 49, 98, 196, 149, 55, 110, 220, 165, 87, 174, 65, 130, 25, 50, 100, 200,
   141, 7, 14, 28, 56, 112, 224, 221, 167, 83, 166, 81, 162, 89, 178, 121, 242, 249, 239, 195,
   155, 43, 86, 172, 69, 138, 9, 18, 36, 72, 144, 61, 122, 244, 245, 247, 243, 251, 235, 203, 139,
   11, 22, 44, 88, 176, 125, 250, 233, 207, 131, 27, 54, 108, 216, 173, 71, 142, 1, 2]

/-- The module-level `gf_log` table after `create_tables()` with the default
primitive polynomial `0x11d`, given as the literal list of its 256 entries;
the theorem `create_tables_eq` below proves that `create_tables 0x11d`
computes exactly this table. -/
def gf_log : List Nat :=
  [0, 0, 1, 25, 2, 50, 26, 198, 3, 223, 51, 238, 27, 104, 199, 75, 4, 100, 224, 14, 52, 141, 239,
   129, 28, 193, 105, 248, 200, 8, 76, 113, 5, 138, 101, 47, 225, 36, 15, 33, 53, 147, 142, 218,
   240, 18, 130, 69, 29, 181, 194, 125, 106, 39, 249, 185, 201, 154, 9, 120, 77, 228, 114, 166, 6,
   191, 139, 98, 102, 221, 48, 253, 226, 152, 37, 179, 16, 145, 34, 136, 54, 208, 148, 206, 143,
   150, 219, 189, 241, 210, 19, 92, 131, 56, 70, 64, 30, 66, 182, 163, 195, 72, 126, 110, 107, 58,
   40, 84, 250, 133, 186, 61, 202, 94, 155, 159, 10, 21, 121, 43, 78, 212, 229, 172, 115, 243,
   167, 87, 7, 112, 192, 247, 140, 128, 99, 13, 103, 74, 222, 237, 49, 197, 254, 24, 227, 165,
   153, 119, 38, 184, 180, 124, 17, 68, 146, 217, 35, 32, 137, 46, 55, 63, 209, 91, 149, 188, 207,
   205, 144, 135, 151, 178, 220, 252, 190, 97, 242, 86, 211, 171, 20, 42, 93, 158, 132, 60, 57,
   83, 71, 109, 65, 162, 31, 45, 67, 216, 183, 123, 164, 118, 196, 23, 73, 236, 127, 12, 111, 246,
   108, 161, 59, 82, 41, 157, 85, 170, 251, 96, 134, 177, 187, 204, 62, 90, 203, 89, 95, 176, 156,
   169, 160, 81, 11, 245, 22, 235, 122, 117, 44, 215, 79, 174, 213, 233, 230, 231, 173, 232, 116,
   214, 244, 234, 168, 80, 88, 175]

/-- Table-based GF(2^8) multiplication; embeds `gf_mul`.  Table indexing uses
`getD` with default `0`; every index reached from byte-valued arguments is in
range in the source. -/
def gf_mul (x y : Nat) : Nat :=
  if x = 0 ∨ y = 0 then 0
  else gf_exp.getD (gf_log.getD x 0 + gf_log.getD y 0) 0

/-- Table-based GF(2^8) division; embeds `gf_div`.  The source raises
`ZeroDivisionError` when `y = 0`, modelled as `none`. -/
def gf_div (x y : Nat) : Option Nat :=
  if y = 0 then none
  else if x = 0 then some 0
  else some (gf_exp.getD ((gf_log.getD x 0 + 255 - gf_log.getD y 0) % 255) 0)

/-- Table-based GF(2^8) exponentiation; embeds `gf_pow`.  The exponent is an
`Int` because the source is called with negative exponents (Forney), relying on
Python's `%` returning a value in `[0, 254]`; `Int.emod` by the positive
constant `255` has exactly those semantics. -/
def gf_pow (x : Nat) (power : Int) : Nat :=
  gf_exp.getD (((gf_log.getD x 0 : Int) * power % 255).toNat) 0

/-- Multiplicative inverse; embeds `gf_inverse` (`gf_div 1 x`). -/
def gf_inverse (x : Nat) : Option Nat := gf_div 1 x

/-- Scalar multiplication of a polynomial; embeds `gf_poly_num_mul`. -/
def gf_poly_num_mul (poly : List Nat) (x : Nat) : List Nat :=
  poly.map (fun coeff => gf_mul coeff x)

/-- Polynomial addition (XOR), right-aligned; embeds `gf_poly_add`.  The source
allocates `max` length, copies `p` into the rightmost slots (leaving a zero
prefix) and XORs `q` into the rightmost slots, which is exactly the zipWith of
the two left-zero-padded operands. -/
def gf_poly_add (p q : List Nat) : List Nat :=
  let m := max p.length q.length
  List.zipWith (fun a b => a ^^^ b)
    (List.replicate (m - p.length) 0 ++ p)
    (List.replicate (m - q.length) 0 ++ q)

/-- XOR the vector `v` into the list `m` starting at offset `off`
(`m[off + t] ^= v[t]`); writes past the end of `m` are dropped.  Helper used to
state the inner loops of `gf_poly_mul`. -/
def xorInto : List Nat → Nat → List Nat → List Nat
  | [], _, _ => []
  | a :: m, 0, [] => a :: m
  | a :: m, 0, b :: v => (a ^^^ b) :: xorInto m 0 v
  | a :: m, o + 1, v => a :: xorInto m o v

/-- Polynomial multiplication (convolution); embeds `gf_poly_mul`.  The source
runs `result[i + j] ^= gf_mul(p[i], q[j])` for `j` over `q` and `i` over `p`;
for a fixed `j` the inner loop XORs the scaled copy `gf_poly_num_mul p q[j]`
into `result` at offset `j` (all writes are in range:
`i + j ≤ len p + len q - 2`). -/
def gf_poly_mul (p q : List Nat) : List Nat :=
  (List.range q.length).foldl
    (fun result j => xorInto result j (gf_poly_num_mul p (q.getD j 0)))
    (List.replicate (p.length + q.length - 1) 0)

/-- Horner evaluation of a polynomial at a point; embeds `gf_poly_point_eval`.
The source reads `poly[0]` first (an `IndexError` on the empty list, which no
caller produces); the embedding returns `0` for the empty list. -/
def gf_poly_point_eval (poly : List Nat) (x : Nat) : Nat :=
  (poly.drop 1).foldl (fun y c => gf_mul y x ^^^ c) (poly.getD 0 0)

/-- The inner loop of one outer step of `gf_poly_div`: for `j` in
`range(1, len(divisor))`, if `divisor[j] ≠ 0` then
`msg_out[i + j] ^= gf_mul(divisor[j], coef)`. -/
def pdivInner (divisor : List Nat) (coef i : Nat) (m : List Nat) : List Nat :=
  (List.range' 1 (divisor.length - 1)).foldl
    (fun acc j =>
      if divisor.getD j 0 ≠ 0 then
        acc.set (i + j) (acc.getD (i + j) 0 ^^^ gf_mul (divisor.getD j 0) coef)
      else acc)
    m

/-- The outer loop of `gf_poly_div`: `count` iterations starting at index `i`;
each reads `coef = msg_out[i]` and, when nonzero, runs the inner loop. -/
def pdivGo (divisor : List Nat) : List Nat → Nat → Nat → List Nat
  | m, _, 0 => m
  | m, i, c + 1 =>
      let coef := m.getD i 0
      pdivGo divisor (if coef ≠ 0 then pdivInner divisor coef i m else m) (i + 1) c

/-- Synthetic long division of polynomials; embeds `gf_poly_div`, returning
`(quotient, remainder)`.  The outer loop runs
`len(dividend) - len(divisor) + 1` times (none when that is not positive).  The
final split is Python's `msg_out[:separator], msg_out[separator:]` with
`separator = -(len(divisor) - 1)`: when the separator is `0` (divisor of length
1) Python yields `([], msg_out)`, when it is positive (empty divisor — a case
on which the source's loop would in fact raise `IndexError` first, never
reached by any caller) it splits after the first element, and otherwise it
splits `len(divisor) - 1` symbols from the end. -/
def gf_poly_div (dividend divisor : List Nat) : List Nat × List Nat :=
  let msg_out := pdivGo divisor dividend 0 (dividend.length + 1 - divisor.length)
  let sep : Int := -((divisor.length : Int) - 1)
  if sep = 0 then ([], msg_out)
  else if 0 < sep then (msg_out.take 1, msg_out.drop 1)
  else (msg_out.take (msg_out.length - (divisor.length - 1)),
        msg_out.drop (msg_out.length - (divisor.length - 1)))

/-- GF(2^8) addition; embeds `gf_add` (plain XOR). -/
def gf_add (x y : Nat) : Nat := x ^^^ y

/-! The decode pipeline of `main.py`.  Failure values: -/

/-- Failure values of the decode pipeline.  `inputTooLong`, `tooManyErasures`,
`uncorrectable`, `errorCountMismatch` and `correctionFailed` model the source's
print-and-`exit(0)` sites; `divisionByZero` and `indexError` model Python
exceptions (`ZeroDivisionError`, `IndexError`) escaping from the field layer or
from list indexing; `typeErr` models the crash that follows
`forney_correct_errors` returning `None`. -/
inductive RSError where
  | divisionByZero
  | inputTooLong
  | tooManyErasures
  | uncorrectable
  | errorCountMismatch
  | correctionFailed
  | indexError
  | typeErr
deriving DecidableEq

/-- Python list indexing `l[i]` for a possibly negative index: negative indices
count from the end; out-of-range access is `none` (`IndexError`). -/
def pyGet (l : List Nat) (i : Int) : Option Nat :=
  let j := if i < 0 then i + l.length else i
  if 0 ≤ j then l.get? j.toNat else none

/-- Python list element assignment `l[i] = v` for a nonnegative index;
out-of-range is `none` (`IndexError`). -/
def pySetNat (l : List Nat) (i v : Nat) : Option (List Nat) :=
  if i < l.length then some (l.set i v) else none

/-- Interpret an out-of-range lookup or store as an `IndexError`. -/
def liftIdx {α : Type} : Option α → Except RSError α
  | some v => .ok v
  | none => .error .indexError

/-- Interpret a failed field division as a `ZeroDivisionError`. -/
def liftDiv {α : Type} : Option α → Except RSError α
  | some v => .ok v
  | none => .error .divisionByZero

/-- The loop of `generate_generator_poly`: `count` more factors
`[1, gf_pow 2 i]` starting at exponent `i`. -/
def gen_go (g : List Nat) : Nat → Nat → List Nat
  | _, 0 => g
  | i, c + 1 => gen_go (gf_poly_mul g [1, gf_pow 2 i]) (i + 1) c

/-- Generator polynomial of degree `r`; embeds `generate_generator_poly`. -/
def generate_generator_poly (r : Nat) : List Nat := gen_go [1] 0 r

/-- Systematic encoder; embeds `encode_message`: divide the zero-padded message
by the generator and append the remainder. -/
def encode_message (msg_in : List Nat) (r : Nat) : List Nat :=
  let gen := generate_generator_poly r
  msg_in ++ (gf_poly_div (msg_in ++ List.replicate (gen.length - 1) 0) gen).2

/-- Syndrome vector with the leading alignment zero; embeds
`calculate_syndromes`. -/
def calculate_syndromes (msg : List Nat) (r : Nat) : List Nat :=
  0 :: (List.range r).map (fun (i : Nat) => gf_poly_point_eval msg (gf_pow 2 i))

/-- One pass of the Forney-syndrome recurrence
`forney_synd[j] = gf_mul(forney_synd[j], x) ^ forney_synd[j + 1]` for
`j` in `range(len - 1)`: each slot is written once, reading its own old value
and the old value of its right neighbour (written only at a later `j`). -/
def forney_inner (x : Nat) : List Nat → List Nat
  | a :: b :: rest => (gf_mul a x ^^^ b) :: forney_inner x (b :: rest)
  | l => l

/-- Forney syndromes; embeds `calculate_forney_syndromes`.  Positions `p` are
first flipped to power form `n - 1 - p` (every caller has `p < n`, so `Nat`
subtraction agrees with the source). -/
def calculate_forney_syndromes (syndromes erase_pos : List Nat) (n : Nat) : List Nat :=
  (erase_pos.map (fun p => n - 1 - p)).foldl
    (fun fs ep => forney_inner (gf_pow 2 ep) fs)
    (syndromes.drop 1)

/-- The discrepancy `delta` of one Berlekamp-Massey iteration:
`delta = synd[K]`, then `delta ^= gf_mul(err_loc[-(j+1)], synd[K - j])` for `j`
in `range(1, len(err_loc))`.  `err_loc[-(j+1)]` is Python's negative indexing
(always in range here); `synd[K - j]` uses full Python indexing and can raise. -/
def bm_delta (synd err_loc : List Nat) (K : Int) : Except RSError Nat := do
  let d0 ← liftIdx (pyGet synd K)
  (List.range' 1 (err_loc.length - 1)).foldlM
    (fun delta (j : Nat) => do
      let s ← liftIdx (pyGet synd (K - (j : Int)))
      pure (delta ^^^ gf_mul (err_loc.getD (err_loc.length - (j + 1)) 0) s))
    d0

/-- The main Berlekamp-Massey loop (`r - erase_count` iterations); carries the
pair `(err_loc, old_loc)`.  `seeded` is the Python truthiness of the
`erase_loc` argument, which selects the extra `erase_count` term in `K`. -/
def bm_go (synd : List Nat) (r erase_count : Nat) (seeded : Bool) :
    List Nat → List Nat → Nat → Nat → Except RSError (List Nat)
  | err_loc, _, _, 0 => .ok err_loc
  | err_loc, old_loc, i, c + 1 => do
      let K : Int := (i : Int) + ((synd.length : Int) - r) +
        (if seeded then (erase_count : Int) else 0)
      let delta ← bm_delta synd err_loc K
      let old_loc := old_loc ++ [0]
      let el ←
        if delta ≠ 0 then do
          let el ←
            if old_loc.length > err_loc.length then do
              let inv ← liftDiv (gf_inverse delta)
              pure (gf_poly_num_mul old_loc delta, gf_poly_num_mul err_loc inv)
            else pure (err_loc, old_loc)
          pure (gf_poly_add el.1 (gf_poly_num_mul el.2 delta), el.2)
        else pure (err_loc, old_loc)
      bm_go synd r erase_count seeded el.1 el.2 (i + 1) c

/-- Strips leading zero coefficients
(`while err_loc and err_loc[0] == 0: del err_loc[0]`). -/
def dropLeadingZeros : List Nat → List Nat
  | 0 :: rest => dropLeadingZeros rest
  | l => l

/-- The initial locator of `berlekamp_massey`:
`list(erase_loc) if erase_loc else [1]` — Python truthiness, so both `None`
and the empty list fall back to `[1]`. -/
def bmInit (erase_loc : Option (List Nat)) : List Nat :=
  match erase_loc with
  | some (a :: l) => a :: l
  | _ => [1]

/-- Python truthiness of the `erase_loc` argument, used both for the seed and
for the `K` offset. -/
def bmSeeded (erase_loc : Option (List Nat)) : Bool :=
  match erase_loc with
  | some (_ :: _) => true
  | _ => false

/-- Berlekamp-Massey; embeds `berlekamp_massey`.  After the loop the locator is
stripped of leading zeros, and the capacity check
`(errs - erase_count) * 2 + erase_count > r` (on Python ints, so over `Int`:
`errs` is `-1` for an empty locator) aborts — the source prints
"Too many errors to correct" and calls `exit(0)`, modelled as
`.error .uncorrectable`. -/
def berlekamp_massey (synd : List Nat) (r erase_count : Nat)
    (erase_loc : Option (List Nat)) : Except RSError (List Nat) := do
  let raw ← bm_go synd r erase_count (bmSeeded erase_loc)
    (bmInit erase_loc) (bmInit erase_loc) 0 (r - erase_count)
  let err_loc := dropLeadingZeros raw
  let errs : Int := (err_loc.length : Int) - 1
  if (errs - erase_count) * 2 + erase_count > (r : Int) then
    .error .uncorrectable
  else
    .ok err_loc

/-- Chien-style root search; embeds `find_error_positions`.  The count mismatch
check compares Python ints (`len(err_loc) - 1` is `-1` on the empty list), and
its failure (print + `exit(0)`) is `.error .errorCountMismatch`. -/
def find_error_positions (err_loc : List Nat) (n : Nat) : Except RSError (List Nat) :=
  let positions :=
    ((List.range n).filter
      (fun (i : Nat) => gf_poly_point_eval err_loc (gf_pow 2 i) = 0)).map
      (fun i => n - 1 - i)
  if (positions.length : Int) ≠ (err_loc.length : Int) - 1 then
    .error .errorCountMismatch
  else
    .ok positions

/-- Erasure locator polynomial; embeds `compute_erasure_locator_poly`. -/
def compute_erasure_locator_poly (erase_positions : List Nat) : List Nat :=
  erase_positions.foldl
    (fun loc i => gf_poly_mul loc (gf_poly_add [1] [gf_pow 2 i, 0])) [1]

/-- Error evaluator polynomial; embeds `compute_error_evaluator`
(remainder of `synd * err_loc` modulo `x^(r+1)`). -/
def compute_error_evaluator (synd err_loc : List Nat) (r : Nat) : List Nat :=
  (gf_poly_div (gf_poly_mul synd err_loc) (1 :: List.replicate (r + 1) 0)).2

/-- Forney correction; embeds `forney_correct_errors`.  The value `.ok none`
models the source's `return None` on a zero locator derivative; exceptions from
field division or indexing are `.error`.  The per-position loop writes the
magnitudes into `E` and finally returns `gf_poly_add msg E`. -/
def forney_correct_errors (msg synd error_positions : List Nat) :
    Except RSError (Option (List Nat)) := do
  let n := msg.length
  let coef_pos := error_positions.map (fun p => n - 1 - p)
  let err_loc := compute_erasure_locator_poly coef_pos
  let err_eval := (compute_error_evaluator synd.reverse err_loc (err_loc.length - 1)).reverse
  let X := coef_pos.map (fun (i : Nat) => gf_pow 2 (-(255 - (i : Int))))
  let res ← (List.range X.length).foldlM
    (fun st i => do
      match st with
      | none => pure none
      | some E => do
        let Xi := X.getD i 0
        let Xi_inv ← liftDiv (gf_inverse Xi)
        let d := (List.range X.length).foldl
          (fun acc j =>
            if j ≠ i then gf_mul acc (gf_add 1 (gf_mul Xi_inv (X.getD j 0))) else acc) 1
        let y := gf_mul Xi (gf_poly_point_eval err_eval.reverse Xi_inv)
        if d = 0 then pure none
        else do
          let mag ← liftDiv (gf_div y d)
          let E2 ← liftIdx (pySetNat E (error_positions.getD i 0) mag)
          pure (some E2))
    (some (List.replicate n 0))
  match res with
  | none => pure none
  | some E => pure (some (gf_poly_add msg E))

/-- Zero out the erasure positions in the codeword copy (`msg_copy[e] = 0`);
an out-of-range position raises `IndexError` in the source.  (Python would also
accept negative positions; the embedding takes `Nat` positions, which covers
every input the claims speak about.) -/
def zeroErasures : List Nat → List Nat → Except RSError (List Nat)
  | msg, [] => .ok msg
  | msg, e :: rest =>
      match pySetNat msg e 0 with
      | some m => zeroErasures m rest
      | none => .error .indexError

/-- Python's split `(m[:-r], m[-r:])` of a codeword into message and parity:
for `r = 0` this is `([], m)`; otherwise it splits `min r (len m)` symbols off
the end. -/
def pySplitLast (m : List Nat) (r : Nat) : List Nat × List Nat :=
  if r = 0 then ([], m)
  else (m.take (m.length - r), m.drop (m.length - r))

/-- Decode orchestrator; embeds `correct_message` (with `erase_pos or []`
already applied, i.e. the erasure list is passed directly).  The print +
`exit(0)` sites become the corresponding `RSError` values; the unreachable
`if err_pos is None` check of the source is dropped (`find_error_positions`
never returns `None` — it exits instead); a `None` from
`forney_correct_errors` would make the source crash on
`calculate_syndromes(None, r)`, modelled as `.error .typeErr`. -/
def correct_message (msg : List Nat) (r : Nat) (erase_pos : List Nat) :
    Except RSError (List Nat × List Nat) := do
  if msg.length > 255 then
    throw .inputTooLong
  else do
    let msg_copy ← zeroErasures msg erase_pos
    if erase_pos.length > r then
      throw .tooManyErasures
    else do
      let synd := calculate_syndromes msg_copy r
      if synd.foldl max 0 = 0 then
        pure (pySplitLast msg_copy r)
      else do
        let forney_synd := calculate_forney_syndromes synd erase_pos msg_copy.length
        let err_loc ← berlekamp_massey forney_synd r erase_pos.length none
        let err_pos ← find_error_positions err_loc.reverse msg_copy.length
        match ← forney_correct_errors msg_copy synd (erase_pos ++ err_pos) with
        | none => throw .typeErr
        | some msg_corrected => do
          let synd2 := calculate_syndromes msg_corrected r
          if synd2.foldl max 0 > 0 then
            throw .correctionFailed
          else
            pure (pySplitLast msg_corrected r)

/-- All entries of a list are field elements (bytes). -/
def allLt256 (l : List Nat) : Prop := ∀ a ∈ l, a < 256

instance (l : List Nat) : Decidable (allLt256 l) := by
  unfold allLt256; infer_instance

/-- Left-iterated multiplication `t * x^m`, used to reason about Horner
evaluation. -/
def mulPow (x : Nat) : Nat → Nat → Nat
  | 0, t => t
  | m + 1, t => mulPow x m (gf_mul t x)

/-! ## Facts about the field tables (established by evaluation) -/

set_option maxHeartbeats 8000000 in
/-- The literal tables `gf_log` and `gf_exp` above are exactly what
`create_tables` computes with the repository's default primitive polynomial
`0x11d` (the source returns the pair `(gf_log, gf_exp)`). -/
theorem create_tables_eq : create_tables 0x11d = (gf_log, gf_exp) := by decide

/-- The exponent table has 512 entries. -/
theorem gf_exp_length : gf_exp.length = 512 := by decide

/-- The logarithm table has 256 entries. -/
theorem gf_log_length : gf_log.length = 256 := by decide

/-- Every entry of the exponent table is a nonzero byte. -/
theorem gf_exp_bounds : ∀ i < 512, 1 ≤ gf_exp.getD i 0 ∧ gf_exp.getD i 0 < 256 := by decide

/-- Every entry of the logarithm table is below 255. -/
theorem gf_log_lt : ∀ x < 256, gf_log.getD x 0 < 255 := by decide

/-- The exponent table is periodic with period 255 on its full index range. -/
theorem gf_exp_period : ∀ i < 512, gf_exp.getD i 0 = gf_exp.getD (i % 255) 0 := by decide

/-- The logarithm table inverts the exponent table on `[0, 255)`. -/
theorem gf_log_exp : ∀ i < 255, gf_log.getD (gf_exp.getD i 0) 0 = i := by decide

/-- The exponent table inverts the logarithm table on nonzero bytes. -/
theorem gf_exp_log : ∀ x < 256, 1 ≤ x → gf_exp.getD (gf_log.getD x 0) 0 = x := by decide

/-- `gf_exp[0] = 1`. -/
theorem gf_exp_zero : gf_exp.getD 0 0 = 1 := by decide

/-- `gf_log[0] = 0`: zero has no logarithm, so the table slot keeps its initial
value. -/
theorem gf_log_zero : gf_log.getD 0 0 = 0 := by decide

/-- `gf_log[1] = 0`. -/
theorem gf_log_one : gf_log.getD 1 0 = 0 := by decide

/-- `gf_log[2] = 1`: the generator of the multiplicative cycle. -/
theorem gf_log_two : gf_log.getD 2 0 = 1 := by decide

/-- Closed form of multiplication by the generator 2: shift left and, when
bit 7 was set, reduce by the primitive polynomial `0x11d`. -/
theorem gf_mul_two_closed :
    ∀ x < 256, gf_mul x 2 = 2 * x ^^^ (if Nat.testBit x 7 then 0x11d else 0) := by decide

/-- Any exponent-table lookup is a byte. -/
theorem gf_exp_getD_lt (i : Nat) : gf_exp.getD i 0 < 256 := by
  by_cases h : i < 512
  · exact (gf_exp_bounds i h).2
  · rw [List.getD_eq_default]
    · omega
    · rw [gf_exp_length]; omega

/-- Any logarithm-table lookup is below 255. -/
theorem gf_log_getD_lt (x : Nat) : gf_log.getD x 0 < 255 := by
  by_cases h : x < 256
  · exact gf_log_lt x h
  · rw [List.getD_eq_default]
    · omega
    · rw [gf_log_length]; omega

/-- Multiplication never leaves the byte range. -/
theorem gf_mul_lt (x y : Nat) : gf_mul x y < 256 := by
  unfold gf_mul
  split
  · omega
  · exact gf_exp_getD_lt _

theorem gf_mul_zero (x : Nat) : gf_mul x 0 = 0 := by simp [gf_mul]

theorem gf_zero_mul (x : Nat) : gf_mul 0 x = 0 := by simp [gf_mul]

theorem gf_mul_comm (x y : Nat) : gf_mul x y = gf_mul y x := by
  unfold gf_mul
  by_cases h : x = 0 ∨ y = 0
  · rw [if_pos h, if_pos (by tauto)]
  · rw [if_neg h, if_neg (by tauto), Nat.add_comm]

/-- A product of nonzero elements is nonzero (the exponent table has no zero
entries). -/
theorem gf_mul_ne_zero {x y : Nat} (hx : x ≠ 0) (hy : y ≠ 0) : gf_mul x y ≠ 0 := by
  unfold gf_mul
  rw [if_neg (by tauto)]
  have h1 := gf_log_getD_lt x
  have h2 := gf_log_getD_lt y
  have := (gf_exp_bounds (gf_log.getD x 0 + gf_log.getD y 0) (by omega)).1
  omega

/-- Logarithm of an exponent lookup, on the full doubled index range. -/
theorem gf_log_exp_mod {i : Nat} (h : i < 512) :
    gf_log.getD (gf_exp.getD i 0) 0 = i % 255 := by
  rw [gf_exp_period i h]
  exact gf_log_exp (i % 255) (Nat.mod_lt _ (by omega))

/-- Folding an index into `[0, 255)` does not change the exponent lookup. -/
theorem gf_exp_mod {i : Nat} (h : i < 512) : gf_exp.getD i 0 = gf_exp.getD (i % 255) 0 :=
  gf_exp_period i h

theorem gf_mul_of_ne_zero {x y : Nat} (hx : x ≠ 0) (hy : y ≠ 0) :
    gf_mul x y = gf_exp.getD (gf_log.getD x 0 + gf_log.getD y 0) 0 := by
  unfold gf_mul
  rw [if_neg (by tauto)]

/-- Canonical form of a nonzero product: exponent of the summed logs mod 255. -/
theorem gf_mul_eq_exp_mod {x y : Nat} (hx : x ≠ 0) (hy : y ≠ 0) :
    gf_mul x y = gf_exp.getD ((gf_log.getD x 0 + gf_log.getD y 0) % 255) 0 := by
  rw [gf_mul_of_ne_zero hx hy]
  exact gf_exp_mod (by have := gf_log_getD_lt x; have := gf_log_getD_lt y; omega)

theorem gf_mul_one {x : Nat} (hx : x < 256) : gf_mul x 1 = x := by
  by_cases h : x = 0
  · simp [h, gf_mul]
  · rw [gf_mul_of_ne_zero h (by omega), gf_log_one, Nat.add_zero]
    exact gf_exp_log x hx (by omega)

theorem gf_one_mul {x : Nat} (hx : x < 256) : gf_mul 1 x = x := by
  rw [gf_mul_comm]; exact gf_mul_one hx

/-- Multiplication is associative. -/
theorem gf_mul_assoc (x y z : Nat) :
    gf_mul (gf_mul x y) z = gf_mul x (gf_mul y z) := by
  by_cases h0 : x = 0 ∨ y = 0 ∨ z = 0
  · rcases h0 with h | h | h <;> simp [h, gf_mul]
  push_neg at h0
  obtain ⟨hx0, hy0, hz0⟩ := h0
  have lx := gf_log_getD_lt x
  have ly := gf_log_getD_lt y
  have lz := gf_log_getD_lt z
  have hxy : gf_mul x y ≠ 0 := gf_mul_ne_zero hx0 hy0
  have hyz : gf_mul y z ≠ 0 := gf_mul_ne_zero hy0 hz0
  rw [gf_mul_of_ne_zero hxy hz0, gf_mul_of_ne_zero hx0 hyz,
      gf_mul_of_ne_zero hx0 hy0, gf_mul_of_ne_zero hy0 hz0,
      gf_log_exp_mod (by omega), gf_log_exp_mod (by omega)]
  conv_lhs => rw [gf_exp_mod (by omega)]
  conv_rhs => rw [gf_exp_mod (by omega)]
  rw [Nat.mod_add_mod, Nat.add_mod_mod, Nat.add_assoc]

/-- Division fails exactly on a zero divisor. -/
theorem gf_div_eq_none_iff (x y : Nat) : gf_div x y = none ↔ y = 0 := by
  unfold gf_div
  split
  · simp [*]
  · split <;> simp [*]

/-- Dividing a product by one factor recovers the other. -/
theorem gf_div_mul_cancel {x y : Nat} (hx : x < 256) (hy0 : y ≠ 0) :
    gf_div (gf_mul x y) y = some x := by
  by_cases hx0 : x = 0
  · subst hx0
    simp [gf_mul, gf_div, hy0]
  · have hm : gf_mul x y ≠ 0 := gf_mul_ne_zero hx0 hy0
    have lx := gf_log_getD_lt x
    have ly := gf_log_getD_lt y
    have hlog : gf_log.getD (gf_mul x y) 0 = (gf_log.getD x 0 + gf_log.getD y 0) % 255 := by
      rw [gf_mul_eq_exp_mod hx0 hy0]
      exact gf_log_exp _ (Nat.mod_lt _ (by omega))
    unfold gf_div
    rw [if_neg hy0, if_neg hm, hlog]
    congr 1
    have h1 : (gf_log.getD x 0 + gf_log.getD y 0) % 255 + 255 - gf_log.getD y 0
        = (gf_log.getD x 0 + gf_log.getD y 0) % 255 + (255 - gf_log.getD y 0) := by omega
    rw [h1, Nat.mod_add_mod]
    have h2 : gf_log.getD x 0 + gf_log.getD y 0 + (255 - gf_log.getD y 0)
        = gf_log.getD x 0 + 255 := by omega
    rw [h2, Nat.add_mod_right, Nat.mod_eq_of_lt lx]
    exact gf_exp_log x hx (by omega)

/-- Right-multiplication by a fixed nonzero element is injective on bytes. -/
theorem gf_mul_right_cancel {w x y : Nat} (hw : w < 256) (hx : x < 256) (hy0 : y ≠ 0)
    (h : gf_mul w y = gf_mul x y) : w = x := by
  have h1 := gf_div_mul_cancel hw hy0
  have h2 := gf_div_mul_cancel hx hy0
  rw [h] at h1
  rw [h1] at h2
  exact Option.some_inj.mp h2

/-- Fermat-style periodicity: `x^255 = 1` (the exponent index collapses to 0). -/
theorem gf_pow_255 (x : Nat) : gf_pow x 255 = 1 := by
  unfold gf_pow
  rw [Int.mul_emod_left]
  exact gf_exp_zero

/-- `gf_pow 0 e = 1` for every integer exponent: `gf_log[0]` is `0`, so the
exponent index is always `0` and `gf_exp[0] = 1`. -/
theorem gf_pow_zero_base (e : Int) : gf_pow 0 e = 1 := by
  unfold gf_pow
  have h : ((gf_log.getD 0 0 : Int) * e % 255).toNat = 0 := by
    rw [gf_log_zero]
    simp
  rw [h]
  exact gf_exp_zero

theorem gf_pow_lt (x : Nat) (e : Int) : gf_pow x e < 256 := gf_exp_getD_lt _

theorem gf_pow_ne_zero (x : Nat) (e : Int) : gf_pow x e ≠ 0 := by
  unfold gf_pow
  have h1 : (0 : Int) ≤ (gf_log.getD x 0 : Int) * e % 255 := Int.emod_nonneg _ (by omega)
  have h2 : (gf_log.getD x 0 : Int) * e % 255 < 255 := Int.emod_lt_of_pos _ (by omega)
  have := (gf_exp_bounds ((gf_log.getD x 0 : Int) * e % 255).toNat (by omega)).1
  omega

/-- Doubling distributes over XOR. -/
theorem two_mul_xor (a b : Nat) : 2 * (a ^^^ b) = 2 * a ^^^ 2 * b := by
  have h : ∀ n : Nat, 2 * n = n <<< 1 := by
    intro n
    rw [Nat.shiftLeft_eq]
    ring
  rw [h, h, h]
  apply Nat.eq_of_testBit_eq
  intro i
  rcases i with _ | j
  · rw [Nat.testBit_xor, Nat.testBit_shiftLeft, Nat.testBit_shiftLeft, Nat.testBit_shiftLeft]
    rfl
  · simp [Nat.testBit_shiftLeft, Nat.testBit_xor]

/-- Rearrangement lemma for XOR. -/
theorem nat_xor_left_comm (a b c : Nat) : a ^^^ (b ^^^ c) = b ^^^ (a ^^^ c) := by
  rw [← Nat.xor_assoc, Nat.xor_comm a b, Nat.xor_assoc]

/-- XOR cancellation. -/
theorem nat_xor_cancel (a b : Nat) : a ^^^ (a ^^^ b) = b := by
  rw [← Nat.xor_assoc, Nat.xor_self, Nat.zero_xor]

/-- Multiplication by the generator 2 distributes over XOR on bytes. -/
theorem gf_mul_two_xor {a b : Nat} (ha : a < 256) (hb : b < 256) :
    gf_mul (a ^^^ b) 2 = gf_mul a 2 ^^^ gf_mul b 2 := by
  have hab : a ^^^ b < 256 := Nat.xor_lt_two_pow (n := 8) (by omega) (by omega)
  rw [gf_mul_two_closed a ha, gf_mul_two_closed b hb, gf_mul_two_closed _ hab,
      two_mul_xor, Nat.testBit_xor]
  cases ha7 : a.testBit 7 <;> cases hb7 : b.testBit 7
  · simp
  · norm_num
    exact Nat.xor_assoc _ _ _
  · norm_num
    rw [Nat.xor_assoc, Nat.xor_assoc, Nat.xor_comm (2 * b) 285]
  · norm_num
    rw [Nat.xor_assoc, nat_xor_left_comm 285 (2 * b) 285, Nat.xor_self, Nat.xor_zero]

/-- Multiplying a nonzero... in fact any byte by `gf_exp[j]` is `j`-fold
multiplication by the generator 2. -/
theorem gf_mul_exp_iterate :
    ∀ j, j ≤ 254 → ∀ a, a < 256 → gf_mul a (gf_exp.getD j 0) = mulPow 2 j a := by
  intro j
  induction j with
  | zero =>
      intro _ a ha
      rw [gf_exp_zero]
      exact gf_mul_one ha
  | succ j ih =>
      intro hj a ha
      show gf_mul a (gf_exp.getD (j + 1) 0) = mulPow 2 j (gf_mul a 2)
      rw [← ih (by omega) (gf_mul a 2) (gf_mul_lt a 2)]
      by_cases ha0 : a = 0
      · subst ha0
        rw [gf_zero_mul, gf_zero_mul, gf_zero_mul]
      · have hej : gf_exp.getD j 0 ≠ 0 := by
          have := (gf_exp_bounds j (by omega)).1
          omega
        have hej1 : gf_exp.getD (j + 1) 0 ≠ 0 := by
          have := (gf_exp_bounds (j + 1) (by omega)).1
          omega
        have ha2 : gf_mul a 2 ≠ 0 := gf_mul_ne_zero ha0 (by omega)
        have la := gf_log_getD_lt a
        have h2 : gf_mul a 2 = gf_exp.getD ((gf_log.getD a 0 + 1) % 255) 0 := by
          rw [gf_mul_eq_exp_mod ha0 (by omega : (2 : Nat) ≠ 0), gf_log_two]
        rw [gf_mul_eq_exp_mod ha0 hej1, gf_mul_eq_exp_mod ha2 hej,
            gf_log_exp (j + 1) (by omega), h2, gf_log_exp _ (Nat.mod_lt _ (by omega)),
            gf_log_exp j (by omega), Nat.mod_add_mod]
        congr 1
        omega

/-- `mulPow` keeps byte values in byte range. -/
theorem mulPow_lt (x : Nat) : ∀ j t, t < 256 → mulPow x j t < 256 := by
  intro j
  induction j with
  | zero => intro t ht; exact ht
  | succ j ih =>
      intro t ht
      exact ih _ (gf_mul_lt _ _)

/-- Repeated multiplication by 2 distributes over XOR on bytes. -/
theorem mulPow_two_xor :
    ∀ j a b, a < 256 → b < 256 →
      mulPow 2 j (a ^^^ b) = mulPow 2 j a ^^^ mulPow 2 j b := by
  intro j
  induction j with
  | zero => intro a b _ _; rfl
  | succ j ih =>
      intro a b ha hb
      show mulPow 2 j (gf_mul (a ^^^ b) 2) = mulPow 2 j (gf_mul a 2) ^^^ mulPow 2 j (gf_mul b 2)
      rw [gf_mul_two_xor ha hb]
      exact ih _ _ (gf_mul_lt _ _) (gf_mul_lt _ _)

/-- Multiplication distributes over XOR in the left argument (on bytes). -/
theorem gf_mul_xor_left {a b c : Nat} (ha : a < 256) (hb : b < 256) (hc : c < 256) :
    gf_mul (a ^^^ b) c = gf_mul a c ^^^ gf_mul b c := by
  by_cases hc0 : c = 0
  · subst hc0
    rw [gf_mul_zero, gf_mul_zero, gf_mul_zero]
    rfl
  · have hab : a ^^^ b < 256 := Nat.xor_lt_two_pow (n := 8) (by omega) (by omega)
    have hlc : gf_log.getD c 0 ≤ 254 := by have := gf_log_getD_lt c; omega
    have hc2 : gf_exp.getD (gf_log.getD c 0) 0 = c := gf_exp_log c hc (by omega)
    rw [← hc2, gf_mul_exp_iterate _ hlc _ hab, gf_mul_exp_iterate _ hlc _ ha,
        gf_mul_exp_iterate _ hlc _ hb]
    exact mulPow_two_xor _ _ _ ha hb

/-- Multiplication distributes over XOR in the right argument (on bytes). -/
theorem gf_mul_xor_right {a b c : Nat} (ha : a < 256) (hb : b < 256) (hc : c < 256) :
    gf_mul c (a ^^^ b) = gf_mul c a ^^^ gf_mul c b := by
  rw [gf_mul_comm c (a ^^^ b), gf_mul_comm c a, gf_mul_comm c b]
  exact gf_mul_xor_left ha hb hc

/-! ## Polynomial evaluation lemmas -/

theorem eval_nil (x : Nat) : gf_poly_point_eval [] x = 0 := rfl

/-- A leading zero coefficient does not change the Horner value. -/
theorem eval_cons_zero (t : List Nat) (x : Nat) :
    gf_poly_point_eval (0 :: t) x = gf_poly_point_eval t x := by
  cases t with
  | nil => rfl
  | cons c t2 =>
      show List.foldl (fun y c => gf_mul y x ^^^ c) 0 (c :: t2)
        = List.foldl (fun y c => gf_mul y x ^^^ c) c t2
      rw [List.foldl_cons, gf_zero_mul, Nat.zero_xor]

/-- Horner step for a trailing coefficient. -/
theorem eval_snoc (p : List Nat) (c x : Nat) :
    gf_poly_point_eval (p ++ [c]) x = gf_mul (gf_poly_point_eval p x) x ^^^ c := by
  cases p with
  | nil =>
      show gf_poly_point_eval [c] x = gf_mul (gf_poly_point_eval [] x) x ^^^ c
      rw [eval_nil, gf_zero_mul, Nat.zero_xor]
      rfl
  | cons a t =>
      show List.foldl (fun y c => gf_mul y x ^^^ c) a (t ++ [c])
        = gf_mul (List.foldl (fun y c => gf_mul y x ^^^ c) a t) x ^^^ c
      rw [List.foldl_append]
      rfl

/-- Horner evaluation of byte coefficients stays a byte. -/
theorem foldl_horner_lt (x : Nat) :
    ∀ (t : List Nat) (y : Nat), y < 256 → (∀ c ∈ t, c < 256) →
      List.foldl (fun y c => gf_mul y x ^^^ c) y t < 256 := by
  intro t
  induction t with
  | nil => intro y hy _; exact hy
  | cons a t ih =>
      intro y hy ht
      rw [List.foldl_cons]
      exact ih _ (Nat.xor_lt_two_pow (n := 8) (gf_mul_lt y x) (ht a (List.mem_cons_self a t)))
        (fun c hc => ht c (List.mem_cons_of_mem a hc))

/-- Evaluation of a byte polynomial is a byte. -/
theorem eval_lt {p : List Nat} (x : Nat) (hp : allLt256 p) : gf_poly_point_eval p x < 256 := by
  cases p with
  | nil => exact Nat.zero_lt_succ _
  | cons a t =>
      exact foldl_horner_lt x t a (hp a (List.mem_cons_self a t))
        (fun c hc => hp c (List.mem_cons_of_mem a hc))

/-- Horner folds add over XOR-combined coefficient streams. -/
theorem foldl_horner_xor {x : Nat} (hx : x < 256) :
    ∀ (t u : List Nat), t.length = u.length → (∀ c ∈ t, c < 256) → (∀ c ∈ u, c < 256) →
      ∀ yp yq, yp < 256 → yq < 256 →
        List.foldl (fun y c => gf_mul y x ^^^ c) (yp ^^^ yq) (List.zipWith (fun a b => a ^^^ b) t u)
          = List.foldl (fun y c => gf_mul y x ^^^ c) yp t ^^^
            List.foldl (fun y c => gf_mul y x ^^^ c) yq u := by
  intro t
  induction t with
  | nil =>
      intro u hlen _ _ yp yq _ _
      cases u with
      | nil => rfl
      | cons b u => simp at hlen
  | cons a t ih =>
      intro u hlen ht hu yp yq hyp hyq
      cases u with
      | nil => simp at hlen
      | cons b u =>
          have ha : a < 256 := ht a (List.mem_cons_self a t)
          have hb : b < 256 := hu b (List.mem_cons_self b u)
          rw [List.zipWith_cons_cons, List.foldl_cons, List.foldl_cons, List.foldl_cons]
          have hstep : gf_mul (yp ^^^ yq) x ^^^ (a ^^^ b)
              = (gf_mul yp x ^^^ a) ^^^ (gf_mul yq x ^^^ b) := by
            rw [gf_mul_xor_left hyp hyq hx]
            rw [Nat.xor_assoc, Nat.xor_assoc]
            congr 1
            rw [nat_xor_left_comm]
          rw [hstep]
          exact ih u (by simpa using hlen) (fun c hc => ht c (List.mem_cons_of_mem a hc))
            (fun c hc => hu c (List.mem_cons_of_mem b hc)) _ _
            (Nat.xor_lt_two_pow (n := 8) (gf_mul_lt _ _) ha)
            (Nat.xor_lt_two_pow (n := 8) (gf_mul_lt _ _) hb)

/-- Evaluation is additive over coefficient-wise XOR of equal-length
polynomials. -/
theorem eval_zipWith_xor {p q : List Nat} {x : Nat} (hlen : p.length = q.length)
    (hp : allLt256 p) (hq : allLt256 q) (hx : x < 256) :
    gf_poly_point_eval (List.zipWith (fun a b => a ^^^ b) p q) x
      = gf_poly_point_eval p x ^^^ gf_poly_point_eval q x := by
  cases p with
  | nil =>
      cases q with
      | nil =>
          rw [show List.zipWith (fun a b => a ^^^ b) ([] : List Nat) [] = [] from rfl,
              eval_nil, Nat.xor_self]
      | cons b u => simp at hlen
  | cons a t =>
      cases q with
      | nil => simp at hlen
      | cons b u =>
          show List.foldl _ (a ^^^ b) (List.zipWith (fun a b => a ^^^ b) t u)
            = List.foldl _ a t ^^^ List.foldl _ b u
          exact foldl_horner_xor hx t u (by simpa using hlen)
            (fun c hc => hp c (List.mem_cons_of_mem a hc))
            (fun c hc => hq c (List.mem_cons_of_mem b hc)) a b
            (hp a (List.mem_cons_self a t)) (hq b (List.mem_cons_self b u))

/-- Scalar Horner invariant: evaluating a scalar-multiplied coefficient stream
multiplies the running value by the scalar. -/
theorem foldl_horner_scalar {x c : Nat} (hx : x < 256) (hc : c < 256) :
    ∀ (t : List Nat), (∀ a ∈ t, a < 256) → ∀ y, y < 256 →
      List.foldl (fun y cc => gf_mul y x ^^^ cc) (gf_mul y c) (t.map (fun a => gf_mul a c))
        = gf_mul (List.foldl (fun y cc => gf_mul y x ^^^ cc) y t) c := by
  intro t
  induction t with
  | nil => intro _ y _; rfl
  | cons a t ih =>
      intro ht y hy
      have ha : a < 256 := ht a (List.mem_cons_self a t)
      rw [List.map_cons, List.foldl_cons, List.foldl_cons]
      have hstep : gf_mul (gf_mul y c) x ^^^ gf_mul a c = gf_mul (gf_mul y x ^^^ a) c := by
        rw [gf_mul_xor_left (gf_mul_lt y x) ha hc]
        congr 1
        rw [gf_mul_assoc, gf_mul_assoc, gf_mul_comm c x]
      rw [hstep]
      exact ih (fun b hb => ht b (List.mem_cons_of_mem a hb)) _
        (Nat.xor_lt_two_pow (n := 8) (gf_mul_lt _ _) ha)

/-- Evaluating `gf_poly_num_mul p c` multiplies the value by `c`. -/
theorem eval_num_mul {p : List Nat} {x c : Nat} (hp : allLt256 p) (hx : x < 256)
    (hc : c < 256) :
    gf_poly_point_eval (gf_poly_num_mul p c) x = gf_mul (gf_poly_point_eval p x) c := by
  cases p with
  | nil => rw [show gf_poly_num_mul [] c = [] from rfl, eval_nil, gf_zero_mul]
  | cons a t =>
      show List.foldl _ (gf_mul a c) (t.map (fun a => gf_mul a c)) = gf_mul (List.foldl _ a t) c
      exact foldl_horner_scalar hx hc t (fun b hb => hp b (List.mem_cons_of_mem a hb)) a
        (hp a (List.mem_cons_self a t))

/-- Successor law of `mulPow` with the multiplication on the outside. -/
theorem mulPow_succ_outer (x : Nat) : ∀ m t, mulPow x (m + 1) t = gf_mul (mulPow x m t) x := by
  intro m
  induction m with
  | zero => intro t; rfl
  | succ m ih =>
      intro t
      show mulPow x (m + 1) (gf_mul t x) = gf_mul (mulPow x (m + 1) t) x
      rw [ih (gf_mul t x)]
      rfl

/-- Appending `m` zero coefficients multiplies the value by `x^m`. -/
theorem eval_append_zeros (p : List Nat) (x : Nat) :
    ∀ m, gf_poly_point_eval (p ++ List.replicate m 0) x = mulPow x m (gf_poly_point_eval p x) := by
  intro m
  induction m with
  | zero => rw [List.replicate_zero, List.append_nil]; rfl
  | succ m ih =>
      rw [List.replicate_succ', ← List.append_assoc, eval_snoc, ih, Nat.xor_zero,
          mulPow_succ_outer]

/-- Leading zero coefficients do not change the value. -/
theorem eval_replicate_zero_append (q : List Nat) (x : Nat) :
    ∀ k, gf_poly_point_eval (List.replicate k 0 ++ q) x = gf_poly_point_eval q x := by
  intro k
  induction k with
  | zero => rw [List.replicate_zero, List.nil_append]
  | succ k ih => rw [List.replicate_succ, List.cons_append, eval_cons_zero, ih]

/-- XOR with an all-zero stream is the identity. -/
theorem zipWith_xor_zero_left : ∀ (t : List Nat),
    List.zipWith (fun a b => a ^^^ b) (List.replicate t.length 0) t = t := by
  intro t
  induction t with
  | nil => rfl
  | cons a t ih => rw [List.length_cons, List.replicate_succ, List.zipWith_cons_cons,
      Nat.zero_xor, ih]

/-- Horner decomposition of a head coefficient. -/
theorem eval_cons_decomp {t : List Nat} {c x : Nat} (hc : c < 256) (ht : allLt256 t)
    (hx : x < 256) :
    gf_poly_point_eval (c :: t) x = mulPow x t.length c ^^^ gf_poly_point_eval t x := by
  have hzip : (c :: t)
      = List.zipWith (fun a b => a ^^^ b) (c :: List.replicate t.length 0) (0 :: t) := by
    rw [List.zipWith_cons_cons, Nat.xor_zero, zipWith_xor_zero_left]
  rw [hzip, eval_zipWith_xor (by simp) ?hp ?hq hx, eval_cons_zero]
  case hp =>
    intro a ha
    rcases List.mem_cons.mp ha with h | h
    · omega
    · have := List.eq_of_mem_replicate h
      omega
  case hq =>
    intro a ha
    rcases List.mem_cons.mp ha with h | h
    · omega
    · exact ht a h
  congr 1
  show gf_poly_point_eval ([c] ++ List.replicate t.length 0) x = mulPow x t.length c
  rw [eval_append_zeros]
  rfl

/-! ## Indexed-write loops -/

theorem getD_set_self {l : List Nat} {i v : Nat} (h : i < l.length) :
    (l.set i v).getD i 0 = v := by
  rw [List.getD_eq_getElem?_getD, List.getElem?_set_self h]
  rfl

theorem getD_set_ne {l : List Nat} {i j v : Nat} (h : i ≠ j) :
    (l.set i v).getD j 0 = l.getD j 0 := by
  rw [List.getD_eq_getElem?_getD, List.getElem?_set_ne h, ← List.getD_eq_getElem?_getD]

theorem set_getD_self : ∀ (l : List Nat) (i : Nat), l.set i (l.getD i 0) = l := by
  intro l
  induction l with
  | nil => intro i; rfl
  | cons a t ih =>
      intro i
      cases i with
      | zero => rfl
      | succ j =>
          show a :: t.set j (t.getD j 0) = a :: t
          rw [ih j]

/-- Effect of a loop that XORs `w j` into slot `i + j` for `j` in
`range' a b`, all writes in range: the length is unchanged and slot `t` picks
up `w (t - i)` exactly when `i + a ≤ t < i + a + b`. -/
theorem foldl_set_xor_range' (w : Nat → Nat) (i : Nat) :
    ∀ (b a : Nat) (m : List Nat), i + a + b ≤ m.length →
      ((List.range' a b).foldl
        (fun acc j => acc.set (i + j) (acc.getD (i + j) 0 ^^^ w j)) m).length = m.length ∧
      ∀ t, ((List.range' a b).foldl
        (fun acc j => acc.set (i + j) (acc.getD (i + j) 0 ^^^ w j)) m).getD t 0
          = if i + a ≤ t ∧ t < i + a + b then m.getD t 0 ^^^ w (t - i) else m.getD t 0 := by
  intro b
  induction b with
  | zero =>
      intro a m hle
      refine ⟨rfl, fun t => ?_⟩
      rw [if_neg (by omega), show List.range' a 0 = ([] : List Nat) from rfl, List.foldl_nil]
  | succ b ih =>
      intro a m hle
      rw [List.range'_succ, List.foldl_cons]
      obtain ⟨ihlen, ihget⟩ :=
        ih (a + 1) (m.set (i + a) (m.getD (i + a) 0 ^^^ w a)) (by rw [List.length_set]; omega)
      constructor
      · rw [ihlen, List.length_set]
      · intro t
        rw [ihget t]
        by_cases h1 : i + (a + 1) ≤ t ∧ t < i + (a + 1) + b
        · rw [if_pos h1, if_pos (by omega), getD_set_ne (by omega)]
        · rw [if_neg h1]
          by_cases h2 : t = i + a
          · subst h2
            rw [getD_set_self (by omega), if_pos (by omega)]
            congr 2
            omega
          · rw [getD_set_ne (fun hh => h2 hh.symm), if_neg (by omega)]

/-- The guarded inner loop of `gf_poly_div` writes the same values as the
unguarded one: skipping a zero divisor coefficient skips only an XOR with
`gf_mul 0 coef = 0`. -/
theorem pdivInner_eq_unguarded (divisor : List Nat) (coef i : Nat) (m : List Nat) :
    pdivInner divisor coef i m
      = (List.range' 1 (divisor.length - 1)).foldl
          (fun acc j => acc.set (i + j) (acc.getD (i + j) 0 ^^^ gf_mul (divisor.getD j 0) coef)) m := by
  unfold pdivInner
  apply List.foldl_ext
  intro acc j _
  by_cases h : divisor.getD j 0 ≠ 0
  · rw [if_pos h]
  · rw [if_neg h]
    push_neg at h
    rw [h, gf_zero_mul, Nat.xor_zero, set_getD_self]

theorem pdivInner_length (divisor : List Nat) (coef i : Nat) (m : List Nat)
    (h : i + divisor.length ≤ m.length) (hd : 1 ≤ divisor.length) :
    (pdivInner divisor coef i m).length = m.length := by
  rw [pdivInner_eq_unguarded]
  exact (foldl_set_xor_range' _ i (divisor.length - 1) 1 m (by omega)).1

theorem pdivInner_getD (divisor : List Nat) (coef i : Nat) (m : List Nat)
    (h : i + divisor.length ≤ m.length) (hd : 1 ≤ divisor.length) (t : Nat) :
    (pdivInner divisor coef i m).getD t 0
      = if i + 1 ≤ t ∧ t < i + divisor.length then
          m.getD t 0 ^^^ gf_mul (divisor.getD (t - i) 0) coef
        else m.getD t 0 := by
  rw [pdivInner_eq_unguarded]
  have := (foldl_set_xor_range' (fun j => gf_mul (divisor.getD j 0) coef) i
    (divisor.length - 1) 1 m (by omega)).2 t
  rw [this]
  by_cases hc : i + 1 ≤ t ∧ t < i + divisor.length
  · rw [if_pos (by omega), if_pos hc]
  · rw [if_neg (by omega), if_neg hc]

/-! ## Helpers on bounded lists -/

theorem allLt256_getD {l : List Nat} (hl : allLt256 l) (t : Nat) : l.getD t 0 < 256 := by
  by_cases h : t < l.length
  · rw [List.getD_eq_getElem _ _ h]
    exact hl _ (List.getElem_mem h)
  · rw [List.getD_eq_default _ _ (by omega)]
    omega

theorem allLt256_of_getD {l : List Nat} (h : ∀ t, t < l.length → l.getD t 0 < 256) :
    allLt256 l := by
  intro a ha
  obtain ⟨t, ht, rfl⟩ := List.getElem_of_mem ha
  have := h t ht
  rwa [List.getD_eq_getElem _ _ ht] at this

theorem allLt256_drop {l : List Nat} (hl : allLt256 l) (n : Nat) : allLt256 (l.drop n) :=
  fun a ha => hl a (List.mem_of_mem_drop ha)

theorem allLt256_take {l : List Nat} (hl : allLt256 l) (n : Nat) : allLt256 (l.take n) :=
  fun a ha => hl a (List.mem_of_mem_take ha)

theorem getD_drop (l : List Nat) : ∀ n t, (l.drop n).getD t 0 = l.getD (n + t) 0 := by
  induction l with
  | nil =>
      intro n t
      rw [List.drop_nil, List.getD_nil, List.getD_nil]
  | cons a m ih =>
      intro n t
      cases n with
      | zero => rw [List.drop_zero, Nat.zero_add]
      | succ k =>
          rw [List.drop_succ_cons, ih k t, show k + 1 + t = (k + t) + 1 from by omega,
              List.getD_cons_succ]

theorem getD_zipWith_xor : ∀ (u v : List Nat), u.length = v.length → ∀ t,
    (List.zipWith (fun a b => a ^^^ b) u v).getD t 0 = u.getD t 0 ^^^ v.getD t 0 := by
  intro u
  induction u with
  | nil =>
      intro v hlen t
      cases v with
      | nil => rw [List.zipWith_nil_right, List.getD_nil, Nat.xor_self]
      | cons b v => simp at hlen
  | cons a u ih =>
      intro v hlen t
      cases v with
      | nil => simp at hlen
      | cons b v =>
          rw [List.zipWith_cons_cons]
          cases t with
          | zero => rfl
          | succ t =>
              rw [List.getD_cons_succ, List.getD_cons_succ, List.getD_cons_succ]
              exact ih v (by simpa using hlen) t

theorem getD_replicate_zero (n t : Nat) : (List.replicate n 0).getD t 0 = 0 := by
  induction n generalizing t with
  | zero => rfl
  | succ k ih =>
      cases t with
      | zero => rfl
      | succ t =>
          rw [List.replicate_succ, List.getD_cons_succ]
          exact ih t

/-- `gf_mul` slides through `mulPow`. -/
theorem gf_mul_mulPow {x c : Nat} (hx : x < 256) (hc : c < 256) :
    ∀ k t, t < 256 → gf_mul (mulPow x k t) c = mulPow x k (gf_mul t c) := by
  intro k
  induction k with
  | zero => intro t _; rfl
  | succ k ih =>
      intro t ht
      show gf_mul (mulPow x k (gf_mul t x)) c = mulPow x k (gf_mul (gf_mul t c) x)
      rw [ih _ (gf_mul_lt t x), gf_mul_assoc, gf_mul_comm x c, ← gf_mul_assoc]

theorem mulPow_add (x : Nat) : ∀ m n t, mulPow x (m + n) t = mulPow x m (mulPow x n t) := by
  intro m n
  induction n with
  | zero => intro t; rfl
  | succ n ih =>
      intro t
      show mulPow x (m + n + 1) t = mulPow x m (mulPow x n (gf_mul t x))
      rw [show m + n + 1 = (m + n) + 1 from rfl]
      show mulPow x (m + n) (gf_mul t x) = _
      exact ih (gf_mul t x)

theorem length_num_mul (p : List Nat) (c : Nat) : (gf_poly_num_mul p c).length = p.length := by
  unfold gf_poly_num_mul
  rw [List.length_map]

theorem getD_num_mul (p : List Nat) (c t : Nat) :
    (gf_poly_num_mul p c).getD t 0 = gf_mul (p.getD t 0) c := by
  unfold gf_poly_num_mul
  by_cases h : t < p.length
  · rw [List.getD_eq_getElem _ _ (by rw [List.length_map]; omega), List.getElem_map,
        List.getD_eq_getElem _ _ h]
  · rw [List.getD_eq_default _ _ (by rw [List.length_map]; omega),
        List.getD_eq_default _ _ (by omega), gf_zero_mul]

/-- Elements of a scalar multiple are bytes. -/
theorem allLt256_num_mul (p : List Nat) (c : Nat) : allLt256 (gf_poly_num_mul p c) := by
  intro a ha
  obtain ⟨b, _, rfl⟩ := List.mem_map.mp ha
  exact gf_mul_lt b c

/-- Coefficient-suffix view of one inner division pass. -/
theorem pdivInner_drop {g : List Nat} (c i : Nat) {m : List Nat}
    (h : i + g.length ≤ m.length) (hd : 1 ≤ g.length) :
    (pdivInner g c i m).drop (i + 1)
      = List.zipWith (fun a b => a ^^^ b) (m.drop (i + 1))
          (gf_poly_num_mul (g.drop 1) c ++ List.replicate (m.length - i - g.length) 0) := by
  have hlen : (pdivInner g c i m).length = m.length := pdivInner_length g c i m h hd
  apply List.ext_getElem
  · rw [List.length_drop, hlen, List.length_zipWith, List.length_drop, List.length_append,
        List.length_replicate, length_num_mul, List.length_drop]
    omega
  · intro t h1 h2
    rw [← List.getD_eq_getElem _ 0 h1, ← List.getD_eq_getElem _ 0 h2, getD_drop,
        getD_zipWith_xor _ _ (by
          rw [List.length_drop, List.length_append, List.length_replicate, length_num_mul,
              List.length_drop]
          omega),
        getD_drop, pdivInner_getD g c i m h hd]
    by_cases ht : t < g.length - 1
    · rw [if_pos (by omega), List.getD_append _ _ _ _ (by rw [length_num_mul, List.length_drop]; omega),
          getD_num_mul, getD_drop, show i + 1 + t - i = 1 + t from by omega]
    · rw [if_neg (by omega),
          List.getD_append_right _ _ _ _ (by rw [length_num_mul, List.length_drop]; omega),
          getD_replicate_zero, Nat.xor_zero]

theorem mulPow_zero (x : Nat) : ∀ k, mulPow x k 0 = 0 := by
  intro k
  induction k with
  | zero => rfl
  | succ k ih =>
      show mulPow x k (gf_mul 0 x) = 0
      rw [gf_zero_mul]
      exact ih

/-- Bytes are preserved by one inner division pass. -/
theorem allLt256_pdivInner {g : List Nat} (c i : Nat) {m : List Nat} (hm : allLt256 m)
    (h : i + g.length ≤ m.length) (hd : 1 ≤ g.length) :
    allLt256 (pdivInner g c i m) := by
  apply allLt256_of_getD
  intro t _
  rw [pdivInner_getD g c i m h hd]
  split
  · exact Nat.xor_lt_two_pow (n := 8) (allLt256_getD hm t) (gf_mul_lt _ _)
  · exact allLt256_getD hm t

/-- One outer division step leaves the Horner value of the retained suffix
unchanged at any root of the monic divisor. -/
theorem pdiv_step_eval {g : List Nat} {x : Nat} (hg : allLt256 g) (hx : x < 256)
    (hmonic : g.getD 0 0 = 1) (hroot : gf_poly_point_eval g x = 0)
    {m : List Nat} (hm : allLt256 m) {i : Nat} (h : i + g.length ≤ m.length)
    (hd : 1 ≤ g.length) :
    gf_poly_point_eval
      ((if m.getD i 0 ≠ 0 then pdivInner g (m.getD i 0) i m else m).drop (i + 1)) x
      = gf_poly_point_eval (m.drop i) x := by
  have hi : i < m.length := by omega
  have hdropeq : m.drop i = m.getD i 0 :: m.drop (i + 1) := by
    rw [List.drop_eq_getElem_cons hi, List.getD_eq_getElem _ 0 hi]
  have hc256 : m.getD i 0 < 256 := allLt256_getD hm i
  have htail : allLt256 (m.drop (i + 1)) := allLt256_drop hm (i + 1)
  have hlen_tail : (m.drop (i + 1)).length = m.length - i - 1 := by
    rw [List.length_drop]; omega
  have hdecomp : gf_poly_point_eval (m.drop i) x
      = mulPow x (m.length - i - 1) (m.getD i 0) ^^^ gf_poly_point_eval (m.drop (i + 1)) x := by
    rw [hdropeq, eval_cons_decomp hc256 htail hx, hlen_tail]
  by_cases hc : m.getD i 0 ≠ 0
  · rw [if_pos hc, pdivInner_drop _ _ h hd,
        eval_zipWith_xor (by
          rw [List.length_drop, List.length_append, List.length_replicate, length_num_mul,
              List.length_drop]
          omega) htail (by
          intro a ha
          rcases List.mem_append.mp ha with h1 | h1
          · exact allLt256_num_mul _ _ a h1
          · have := List.eq_of_mem_replicate h1
            omega) hx,
        eval_append_zeros, eval_num_mul (allLt256_drop hg 1) hx hc256]
    -- value of the shifted scaled divisor tail
    have hgdecomp : g = g.getD 0 0 :: g.drop 1 := by
      have h0 : 0 < g.length := by omega
      conv_lhs => rw [← List.drop_zero g]
      rw [List.drop_eq_getElem_cons h0, List.getD_eq_getElem _ 0 h0]
    have hgtail : gf_poly_point_eval (g.drop 1) x = mulPow x (g.length - 1) 1 := by
      have := hroot
      rw [hgdecomp] at this
      rw [hmonic] at this
      rw [eval_cons_decomp (by omega) (allLt256_drop hg 1) hx] at this
      rw [List.length_drop] at this
      exact (Nat.xor_eq_zero.mp this).symm
    rw [hgtail, gf_mul_mulPow hx hc256 _ 1 (by omega), gf_one_mul hc256, ← mulPow_add,
        hdecomp]
    rw [show m.length - i - g.length + (g.length - 1) = m.length - i - 1 from by omega]
    rw [Nat.xor_comm]
  · rw [if_neg hc]
    push_neg at hc
    rw [hdecomp, hc, mulPow_zero, Nat.zero_xor]

/-- The outer division loop preserves length. -/
theorem pdivGo_length {divisor : List Nat} (hd : 1 ≤ divisor.length) :
    ∀ count i (m : List Nat), i + count + (divisor.length - 1) ≤ m.length →
      (pdivGo divisor m i count).length = m.length := by
  intro count
  induction count with
  | zero => intro i m _; rfl
  | succ c ih =>
      intro i m hle
      show (pdivGo divisor
        (if m.getD i 0 ≠ 0 then pdivInner divisor (m.getD i 0) i m else m) (i + 1) c).length
        = m.length
      by_cases hc : m.getD i 0 ≠ 0
      · rw [if_pos hc, ih (i + 1) _ (by
          rw [pdivInner_length _ _ _ _ (by omega) hd]
          omega), pdivInner_length _ _ _ _ (by omega) hd]
      · rw [if_neg hc]
        exact ih (i + 1) m (by omega)

/-- The outer division loop preserves byte-valued coefficients. -/
theorem pdivGo_allLt {divisor : List Nat} (hd : 1 ≤ divisor.length) :
    ∀ count i (m : List Nat), allLt256 m → i + count + (divisor.length - 1) ≤ m.length →
      allLt256 (pdivGo divisor m i count) := by
  intro count
  induction count with
  | zero => intro i m hm _; exact hm
  | succ c ih =>
      intro i m hm hle
      show allLt256 (pdivGo divisor
        (if m.getD i 0 ≠ 0 then pdivInner divisor (m.getD i 0) i m else m) (i + 1) c)
      by_cases hc : m.getD i 0 ≠ 0
      · rw [if_pos hc]
        exact ih (i + 1) _ (allLt256_pdivInner _ _ hm (by omega) hd)
          (by rw [pdivInner_length _ _ _ _ (by omega) hd]; omega)
      · rw [if_neg hc]
        exact ih (i + 1) m hm (by omega)

/-- Main division invariant: at any root of the monic divisor, the Horner value
of the suffix that will become the remainder equals the value of the original
dividend suffix. -/
theorem pdivGo_eval {g : List Nat} {x : Nat} (hg : allLt256 g) (hx : x < 256)
    (hmonic : g.getD 0 0 = 1) (hroot : gf_poly_point_eval g x = 0) (hd : 1 ≤ g.length) :
    ∀ count i (m : List Nat), allLt256 m → i + count + (g.length - 1) ≤ m.length →
      gf_poly_point_eval ((pdivGo g m i count).drop (i + count)) x
        = gf_poly_point_eval (m.drop i) x := by
  intro count
  induction count with
  | zero =>
      intro i m _ _
      rw [Nat.add_zero]
      rfl
  | succ c ih =>
      intro i m hm hle
      show gf_poly_point_eval ((pdivGo g
          (if m.getD i 0 ≠ 0 then pdivInner g (m.getD i 0) i m else m) (i + 1) c).drop
          (i + (c + 1))) x
        = gf_poly_point_eval (m.drop i) x
      have hm2 : allLt256 (if m.getD i 0 ≠ 0 then pdivInner g (m.getD i 0) i m else m) := by
        by_cases hc : m.getD i 0 ≠ 0
        · rw [if_pos hc]
          exact allLt256_pdivInner _ _ hm (by omega) hd
        · rw [if_neg hc]
          exact hm
      have hlen2 : (if m.getD i 0 ≠ 0 then pdivInner g (m.getD i 0) i m else m).length
          = m.length := by
        by_cases hc : m.getD i 0 ≠ 0
        · rw [if_pos hc, pdivInner_length _ _ _ _ (by omega) hd]
        · rw [if_neg hc]
      rw [show i + (c + 1) = (i + 1) + c from by omega,
          ih (i + 1) _ hm2 (by rw [hlen2]; omega)]
      exact pdiv_step_eval hg hx hmonic hroot hm (by omega) hd

/-! ## Generator polynomial -/

theorem xorInto_length : ∀ (m : List Nat) (off : Nat) (v : List Nat),
    (xorInto m off v).length = m.length := by
  intro m
  induction m with
  | nil => intro off v; rfl
  | cons a m ih =>
      intro off v
      cases off with
      | zero =>
          cases v with
          | nil => rfl
          | cons b v =>
              show (xorInto m 0 v).length + 1 = m.length + 1
              rw [ih 0 v]
      | succ o =>
          show (xorInto m o v).length + 1 = m.length + 1
          rw [ih o v]

theorem getD_xorInto : ∀ (m : List Nat) (off : Nat) (v : List Nat) (t : Nat),
    (xorInto m off v).getD t 0
      = if off ≤ t ∧ t - off < v.length ∧ t < m.length
        then m.getD t 0 ^^^ v.getD (t - off) 0 else m.getD t 0 := by
  intro m
  induction m with
  | nil =>
      intro off v t
      rw [if_neg (fun hh => by have h3 := hh.2.2; simp at h3)]
      rfl
  | cons a m ih =>
      intro off v t
      cases off with
      | zero =>
          cases v with
          | nil =>
              rw [if_neg (fun hh => by have h2 := hh.2.1; simp at h2)]
              rfl
          | cons b v =>
              cases t with
              | zero =>
                  show ((a ^^^ b) :: xorInto m 0 v).getD 0 0 = _
                  rw [if_pos ⟨Nat.zero_le 0, by simp, by simp⟩]
                  rfl
              | succ t =>
                  show ((a ^^^ b) :: xorInto m 0 v).getD (t + 1) 0 = _
                  rw [List.getD_cons_succ, ih 0 v t]
                  simp only [List.length_cons, List.getD_cons_succ, Nat.sub_zero]
                  by_cases hcond : t < v.length ∧ t < m.length
                  · rw [if_pos (by omega), if_pos (by omega)]
                  · rw [if_neg (by omega), if_neg (by omega)]
      | succ o =>
          cases t with
          | zero =>
              show (a :: xorInto m o v).getD 0 0 = _
              rw [if_neg (by omega)]
              rfl
          | succ t =>
              show (a :: xorInto m o v).getD (t + 1) 0 = _
              rw [List.getD_cons_succ, ih o v t]
              simp only [List.length_cons, List.getD_cons_succ]
              by_cases hcond : o ≤ t ∧ t - o < v.length ∧ t < m.length
              · rw [if_pos hcond, if_pos (by omega)]
                rw [show t + 1 - (o + 1) = t - o from by omega]
              · rw [if_neg hcond, if_neg (by omega)]

theorem length_gf_poly_mul (p q : List Nat) :
    (gf_poly_mul p q).length = p.length + q.length - 1 := by
  unfold gf_poly_mul
  have hgen : ∀ (js : List Nat) (m : List Nat),
      (js.foldl (fun result j => xorInto result j (gf_poly_num_mul p (q.getD j 0))) m).length
        = m.length := by
    intro js
    induction js with
    | nil => intro m; rfl
    | cons j js ih =>
        intro m
        rw [List.foldl_cons, ih, xorInto_length]
  rw [hgen, List.length_replicate]

theorem num_mul_one {p : List Nat} (hp : allLt256 p) : gf_poly_num_mul p 1 = p := by
  unfold gf_poly_num_mul
  have h : ∀ a ∈ p, gf_mul a 1 = a := fun a ha => gf_mul_one (hp a ha)
  calc p.map (fun a => gf_mul a 1) = p.map id := List.map_congr_left h
    _ = p := List.map_id p

/-- Multiplying by the linear factor `[1, b]` shifts and adds a scalar
multiple. -/
theorem gf_poly_mul_linear {p : List Nat} (hp : allLt256 p) (b : Nat) :
    gf_poly_mul p [1, b]
      = List.zipWith (fun u v => u ^^^ v) (p ++ [0]) (0 :: gf_poly_num_mul p b) := by
  have hlen : (gf_poly_mul p [1, b]).length = p.length + 1 := by
    rw [length_gf_poly_mul]
    simp
  apply List.ext_getElem
  · rw [hlen]
    simp [length_num_mul]
  · intro t h1 h2
    rw [← List.getD_eq_getElem _ 0 h1, ← List.getD_eq_getElem _ 0 h2,
        getD_zipWith_xor _ _ (by simp [length_num_mul])]
    show (gf_poly_mul p [1, b]).getD t 0 = _
    unfold gf_poly_mul
    rw [show List.range (([1, b] : List Nat)).length = [0, 1] from rfl,
        List.foldl_cons, List.foldl_cons, List.foldl_nil,
        getD_xorInto, getD_xorInto, xorInto_length, List.length_replicate,
        show (([1, b] : List Nat)).getD 0 0 = 1 from rfl,
        show (([1, b] : List Nat)).getD 1 0 = b from rfl, num_mul_one hp]
    rw [hlen] at h1
    simp only [length_num_mul, List.length_cons, List.length_nil, getD_replicate_zero,
      Nat.zero_xor, Nat.sub_zero, Nat.add_sub_cancel]
    cases t with
    | zero =>
        rw [if_neg (by omega), List.getD_cons_zero, Nat.xor_zero]
        by_cases h0 : 0 < p.length
        · rw [if_pos (by omega), List.getD_append _ _ _ _ h0]
        · have hp0 : p = [] := List.length_eq_zero.mp (by omega)
          subst hp0
          rw [if_neg (by omega)]
          rfl
    | succ t =>
        rw [List.getD_cons_succ, show t + 1 - 1 = t from by omega, getD_num_mul]
        by_cases hin : t < p.length
        · rw [if_pos (by omega)]
          by_cases hsh : t + 1 < p.length
          · rw [if_pos (by omega), List.getD_append _ _ _ _ hsh]
          · rw [if_neg (by omega), List.getD_append_right _ _ _ _ (by omega),
                show t + 1 - p.length = 0 from by omega, List.getD_cons_zero, Nat.zero_xor]
        · have ht : t = p.length := by omega
          rw [if_neg (by omega), if_neg (by omega),
              List.getD_eq_default _ _ (by rw [List.length_append]; simp; omega),
              List.getD_eq_default _ _ (by omega), gf_zero_mul, Nat.zero_xor]

theorem allLt256_append {u v : List Nat} (hu : allLt256 u) (hv : allLt256 v) :
    allLt256 (u ++ v) := by
  intro a ha
  rcases List.mem_append.mp ha with h | h
  · exact hu a h
  · exact hv a h

theorem allLt256_cons {a : Nat} {u : List Nat} (ha : a < 256) (hu : allLt256 u) :
    allLt256 (a :: u) := by
  intro c hc
  rcases List.mem_cons.mp hc with h | h
  · omega
  · exact hu c h

theorem allLt256_zipWith_xor {u v : List Nat} (hu : allLt256 u) (hv : allLt256 v)
    (h : u.length = v.length) :
    allLt256 (List.zipWith (fun a b => a ^^^ b) u v) := by
  apply allLt256_of_getD
  intro t _
  rw [getD_zipWith_xor u v h t]
  exact Nat.xor_lt_two_pow (n := 8) (allLt256_getD hu t) (allLt256_getD hv t)

theorem allLt256_gf_poly_mul_linear {p : List Nat} (hp : allLt256 p) (b : Nat) :
    allLt256 (gf_poly_mul p [1, b]) := by
  rw [gf_poly_mul_linear hp b]
  exact allLt256_zipWith_xor
    (allLt256_append hp (allLt256_cons (by omega) (fun a ha => by simp at ha)))
    (allLt256_cons (by omega) (allLt256_num_mul p b))
    (by simp [length_num_mul])

/-- Evaluating after multiplication by the linear factor `[1, b]`. -/
theorem eval_gf_poly_mul_linear {p : List Nat} (hp : allLt256 p) {b x : Nat}
    (hb : b < 256) (hx : x < 256) :
    gf_poly_point_eval (gf_poly_mul p [1, b]) x
      = gf_mul (gf_poly_point_eval p x) (x ^^^ b) := by
  rw [gf_poly_mul_linear hp b,
      eval_zipWith_xor (by simp [length_num_mul])
        (allLt256_append hp (allLt256_cons (by omega) (fun a ha => by simp at ha)))
        (allLt256_cons (by omega) (allLt256_num_mul p b)) hx,
      eval_snoc, Nat.xor_zero, eval_cons_zero, eval_num_mul hp hx hb,
      gf_mul_xor_right (hx) (hb) (eval_lt x hp)]

/-! ## The generator polynomial -/

theorem gen_go_length : ∀ (c : Nat) (g : List Nat) (i : Nat),
    (gen_go g i c).length = g.length + c := by
  intro c
  induction c with
  | zero => intro g i; rfl
  | succ c ih =>
      intro g i
      show (gen_go (gf_poly_mul g [1, gf_pow 2 (i : Int)]) (i + 1) c).length = g.length + (c + 1)
      rw [ih, length_gf_poly_mul]
      simp
      omega

theorem gen_go_allLt : ∀ (c : Nat) (g : List Nat) (i : Nat), allLt256 g →
    allLt256 (gen_go g i c) := by
  intro c
  induction c with
  | zero => intro g i hg; exact hg
  | succ c ih =>
      intro g i hg
      exact ih _ (i + 1) (allLt256_gf_poly_mul_linear hg _)

theorem gen_go_head : ∀ (c : Nat) (g : List Nat) (i : Nat), allLt256 g → 0 < g.length →
    (gen_go g i c).getD 0 0 = g.getD 0 0 := by
  intro c
  induction c with
  | zero => intro g i _ _; rfl
  | succ c ih =>
      intro g i hg hlen
      show (gen_go (gf_poly_mul g [1, gf_pow 2 (i : Int)]) (i + 1) c).getD 0 0 = g.getD 0 0
      rw [ih _ (i + 1) (allLt256_gf_poly_mul_linear hg _) (by
          rw [length_gf_poly_mul]
          simp),
        gf_poly_mul_linear hg, getD_zipWith_xor _ _ (by simp [length_num_mul]) 0,
        List.getD_cons_zero, Nat.xor_zero, List.getD_append _ _ _ _ hlen]

theorem gen_go_eval_zero : ∀ (c : Nat) (g : List Nat) (i : Nat) {x : Nat}, allLt256 g →
    x < 256 → gf_poly_point_eval g x = 0 → gf_poly_point_eval (gen_go g i c) x = 0 := by
  intro c
  induction c with
  | zero => intro g i x _ _ h; exact h
  | succ c ih =>
      intro g i x hg hx h
      refine ih _ (i + 1) (allLt256_gf_poly_mul_linear hg _) hx ?_
      rw [eval_gf_poly_mul_linear hg (gf_pow_lt 2 i) hx, h, gf_zero_mul]

theorem gen_go_root : ∀ (c : Nat) (g : List Nat) (i e : Nat), allLt256 g →
    i ≤ e → e < i + c → gf_poly_point_eval (gen_go g i c) (gf_pow 2 e) = 0 := by
  intro c
  induction c with
  | zero => intro g i e _ h1 h2; omega
  | succ c ih =>
      intro g i e hg h1 h2
      by_cases he : e = i
      · subst he
        apply gen_go_eval_zero c _ (e + 1) (allLt256_gf_poly_mul_linear hg _) (gf_pow_lt 2 e)
        rw [eval_gf_poly_mul_linear hg (gf_pow_lt 2 e) (gf_pow_lt 2 e), Nat.xor_self,
            gf_mul_zero]
      · exact ih _ (i + 1) e (allLt256_gf_poly_mul_linear hg _) (by omega) (by omega)

theorem generate_generator_poly_length (r : Nat) :
    (generate_generator_poly r).length = r + 1 := by
  unfold generate_generator_poly
  rw [gen_go_length]
  simp
  omega

theorem generate_generator_poly_allLt (r : Nat) : allLt256 (generate_generator_poly r) :=
  gen_go_allLt r [1] 0 (allLt256_cons (by omega) (fun a ha => by simp at ha))

theorem generate_generator_poly_monic (r : Nat) :
    (generate_generator_poly r).getD 0 0 = 1 :=
  gen_go_head r [1] 0 (allLt256_cons (by omega) (fun a ha => by simp at ha)) (by simp)

/-- All powers `2^i`, `i < r`, are roots of the generator polynomial. -/
theorem generate_generator_poly_root {r i : Nat} (h : i < r) :
    gf_poly_point_eval (generate_generator_poly r) (gf_pow 2 i) = 0 :=
  gen_go_root r [1] 0 i (allLt256_cons (by omega) (fun a ha => by simp at ha)) (Nat.zero_le i) (by omega)

/-! ## Plumbing for `Except` computations -/

theorem ebind_ok {ε α β : Type} (x : α) (f : α → Except ε β) :
    (Except.ok x >>= f) = f x := rfl

theorem ebind_error {ε α β : Type} (e : ε) (f : α → Except ε β) :
    ((Except.error e : Except ε α) >>= f) = Except.error e := rfl

theorem epure_eq {ε α : Type} (x : α) : (pure x : Except ε α) = Except.ok x := rfl

theorem ethrow_eq {ε α : Type} (e : ε) : (throw e : Except ε α) = Except.error e := rfl

/-! ## Syndromes of a fresh codeword -/

theorem foldl_max_zero : ∀ (l : List Nat), (∀ a ∈ l, a = 0) → l.foldl max 0 = 0 := by
  intro l
  induction l with
  | nil => intro _; rfl
  | cons a t ih =>
      intro h
      rw [List.foldl_cons, h a (List.mem_cons_self a t), Nat.max_self]
      exact ih (fun b hb => h b (List.mem_cons_of_mem a hb))

theorem calculate_syndromes_foldl_zero {cw : List Nat} {r : Nat}
    (h : ∀ i : Nat, i < r → gf_poly_point_eval cw (gf_pow 2 (i : Int)) = 0) :
    (calculate_syndromes cw r).foldl max 0 = 0 := by
  apply foldl_max_zero
  intro a ha
  rcases List.mem_cons.mp ha with h1 | h1
  · exact h1
  · obtain ⟨i, hi, rfl⟩ := List.mem_map.mp h1
    exact h i (List.mem_range.mp hi)

/-! ## Shape of the encoder output -/

/-- The remainder produced by `gf_poly_div` for a divisor of length at least 2
and a sufficiently long dividend: the last `len(divisor) - 1` symbols of the
worked message. -/
theorem gf_poly_div_remainder {D g : List Nat} (hg : 2 ≤ g.length)
    (hD : g.length - 1 ≤ D.length) :
    (gf_poly_div D g).2
      = (pdivGo g D 0 (D.length + 1 - g.length)).drop (D.length - (g.length - 1)) := by
  unfold gf_poly_div
  rw [if_neg (by omega), if_neg (by omega),
      pdivGo_length (by omega) (D.length + 1 - g.length) 0 D (by omega)]

/-- The encoder output is the message followed by the division remainder. -/
theorem encode_message_eq (msg : List Nat) (r : Nat) :
    encode_message msg r
      = msg ++ (gf_poly_div (msg ++ List.replicate r 0) (generate_generator_poly r)).2 := by
  unfold encode_message
  show msg ++ (gf_poly_div (msg ++ List.replicate ((generate_generator_poly r).length - 1) 0)
    (generate_generator_poly r)).2 = _
  rw [generate_generator_poly_length, Nat.add_sub_cancel]

theorem encode_message_take (msg : List Nat) (r : Nat) :
    (encode_message msg r).take msg.length = msg := by
  rw [encode_message_eq, List.take_left]

theorem encode_message_drop (msg : List Nat) (r : Nat) :
    (encode_message msg r).drop msg.length
      = (gf_poly_div (msg ++ List.replicate r 0) (generate_generator_poly r)).2 := by
  rw [encode_message_eq, List.drop_left]

theorem encode_remainder_eq {msg : List Nat} {r : Nat} (hr : 1 ≤ r) :
    (gf_poly_div (msg ++ List.replicate r 0) (generate_generator_poly r)).2
      = (pdivGo (generate_generator_poly r) (msg ++ List.replicate r 0) 0
          msg.length).drop msg.length := by
  rw [gf_poly_div_remainder (by rw [generate_generator_poly_length]; omega)
      (by rw [generate_generator_poly_length, List.length_append, List.length_replicate]; omega)]
  rw [List.length_append, List.length_replicate, generate_generator_poly_length]
  rw [show msg.length + r + 1 - (r + 1) = msg.length from by omega,
      show msg.length + r - (r + 1 - 1) = msg.length from by omega]

theorem encode_remainder_length {msg : List Nat} {r : Nat} (hr : 1 ≤ r) :
    ((gf_poly_div (msg ++ List.replicate r 0) (generate_generator_poly r)).2).length = r := by
  rw [encode_remainder_eq hr, List.length_drop,
      pdivGo_length (by rw [generate_generator_poly_length]; omega) msg.length 0 _ (by
        rw [List.length_append, List.length_replicate, generate_generator_poly_length]
        omega),
      List.length_append, List.length_replicate]
  omega

theorem encode_message_length {msg : List Nat} {r : Nat} (hr : 1 ≤ r) :
    (encode_message msg r).length = msg.length + r := by
  rw [encode_message_eq, List.length_append, encode_remainder_length hr]

/-- The remainder is byte-valued whenever the message is. -/
theorem encode_remainder_allLt {msg : List Nat} {r : Nat} (hmsg : allLt256 msg) (hr : 1 ≤ r) :
    allLt256 ((gf_poly_div (msg ++ List.replicate r 0) (generate_generator_poly r)).2) := by
  rw [encode_remainder_eq hr]
  apply allLt256_drop
  apply pdivGo_allLt (by rw [generate_generator_poly_length]; omega)
  · exact allLt256_append hmsg (fun a ha => by
      have := List.eq_of_mem_replicate ha
      omega)
  · rw [List.length_append, List.length_replicate, generate_generator_poly_length]
    omega

/-- A fresh codeword evaluates to zero at every generator root. -/
theorem encode_message_eval_zero {msg : List Nat} {r : Nat} (hmsg : allLt256 msg)
    (hr : 1 ≤ r) {i : Nat} (hi : i < r) :
    gf_poly_point_eval (encode_message msg r) (gf_pow 2 (i : Int)) = 0 := by
  have hx : gf_pow 2 (i : Int) < 256 := gf_pow_lt 2 i
  have hD : allLt256 (msg ++ List.replicate r 0) :=
    allLt256_append hmsg (fun a ha => by have := List.eq_of_mem_replicate ha; omega)
  have hDlen : (msg ++ List.replicate r 0).length = msg.length + r := by
    rw [List.length_append, List.length_replicate]
  have hR := @encode_remainder_eq msg r hr
  have hRlen := @encode_remainder_length msg r hr
  have hRallLt := encode_remainder_allLt hmsg hr
  -- the codeword as a coefficientwise XOR of the padded message and padded remainder
  have hsplit : encode_message msg r
      = List.zipWith (fun a b => a ^^^ b) (msg ++ List.replicate r 0)
          (List.replicate msg.length 0
            ++ (gf_poly_div (msg ++ List.replicate r 0) (generate_generator_poly r)).2) := by
    rw [encode_message_eq]
    apply List.ext_getElem
    · rw [List.length_append, List.length_zipWith, hDlen, List.length_append,
          List.length_replicate, hRlen]
      omega
    · intro t h1 h2
      rw [← List.getD_eq_getElem _ 0 h1, ← List.getD_eq_getElem _ 0 h2,
          getD_zipWith_xor _ _ (by
            rw [hDlen, List.length_append, List.length_replicate, hRlen]
            try omega)]
      by_cases ht : t < msg.length
      · rw [List.getD_append _ _ _ _ ht, List.getD_append _ _ _ _ ht,
            List.getD_append _ _ _ _ (by rw [List.length_replicate]; omega),
            getD_replicate_zero, Nat.xor_zero]
      · rw [List.getD_append_right _ _ _ _ (by omega),
            List.getD_append_right _ _ _ _ (by omega),
            List.getD_append_right _ _ _ _ (by rw [List.length_replicate]; omega),
            getD_replicate_zero, List.length_replicate, Nat.zero_xor]
  rw [hsplit,
      eval_zipWith_xor (by
        rw [hDlen, List.length_append, List.length_replicate, hRlen]
        try omega) hD (allLt256_append (fun a ha => by
          have := List.eq_of_mem_replicate ha
          omega) hRallLt) hx,
      eval_append_zeros, eval_replicate_zero_append]
  -- the remainder evaluates to the same value as the dividend at the root
  have hinv := pdivGo_eval (generate_generator_poly_allLt r) hx
    (generate_generator_poly_monic r) (generate_generator_poly_root hi)
    (by rw [generate_generator_poly_length]; omega)
    msg.length 0 (msg ++ List.replicate r 0) hD
    (by rw [hDlen, generate_generator_poly_length]; omega)
  rw [Nat.zero_add] at hinv
  rw [List.drop_zero] at hinv
  rw [hR, hinv, eval_append_zeros, Nat.xor_self]

/-- Decoding with all-zero syndromes returns the split codeword unchanged. -/
theorem correct_message_valid {msg : List Nat} {r : Nat} (h1 : ¬ msg.length > 255)
    (hsynd : (calculate_syndromes msg r).foldl max 0 = 0) :
    correct_message msg r [] = Except.ok (pySplitLast msg r) := by
  unfold correct_message
  rw [if_neg h1]
  dsimp only [zeroErasures, ebind_ok]
  rw [if_neg (by simp), if_pos hsynd, epure_eq]

/-- Round trip: decoding a freshly encoded codeword (no corruption, no
erasures) returns the message and its parity unchanged. -/
theorem roundtrip {msg : List Nat} {r : Nat} (hmsg : allLt256 msg)
    (hk : msg.length + r ≤ 255) (hr : 1 ≤ r) :
    correct_message (encode_message msg r) r []
      = Except.ok (msg, (encode_message msg r).drop msg.length) := by
  rw [correct_message_valid (by rw [encode_message_length hr]; omega)
      (calculate_syndromes_foldl_zero (fun i hi => encode_message_eval_zero hmsg hr hi))]
  unfold pySplitLast
  rw [if_neg (by omega), encode_message_length hr,
      show msg.length + r - r = msg.length from by omega, encode_message_take]

/-! ## Validation-order lemmas for the decode orchestrator -/

theorem zeroErasures_ok : ∀ (ep msg : List Nat), (∀ e ∈ ep, e < msg.length) →
    ∃ m2, zeroErasures msg ep = Except.ok m2 ∧ m2.length = msg.length := by
  intro ep
  induction ep with
  | nil => intro msg _; exact ⟨msg, rfl, rfl⟩
  | cons e rest ih =>
      intro msg h
      have he : e < msg.length := h e (List.mem_cons_self e rest)
      obtain ⟨m2, hm2, hlen⟩ := ih (msg.set e 0) (fun e2 he2 => by
        rw [List.length_set]
        exact h e2 (List.mem_cons_of_mem e he2))
      refine ⟨m2, ?_, by rw [hlen, List.length_set]⟩
      show (match pySetNat msg e 0 with
            | some m => zeroErasures m rest
            | none => Except.error RSError.indexError) = Except.ok m2
      rw [show pySetNat msg e 0 = some (msg.set e 0) from by unfold pySetNat; rw [if_pos he]]
      exact hm2

theorem correct_message_too_long {msg : List Nat} {r : Nat} {ep : List Nat}
    (h : msg.length > 255) : correct_message msg r ep = Except.error RSError.inputTooLong := by
  unfold correct_message
  rw [if_pos h, ethrow_eq]

theorem correct_message_too_many_erasures {msg : List Nat} {r : Nat} {ep : List Nat}
    (h1 : ¬ msg.length > 255) (h2 : ∀ e ∈ ep, e < msg.length) (h3 : ep.length > r) :
    correct_message msg r ep = Except.error RSError.tooManyErasures := by
  obtain ⟨m2, hm2, _⟩ := zeroErasures_ok ep msg h2
  unfold correct_message
  rw [if_neg h1, hm2, ebind_ok, if_pos h3, ethrow_eq]

/-! ## The claims -/

/-- C1 (amended: `r ≥ 1`; byte-valued message symbols).  Round trip without
corruption: decoding a freshly encoded codeword with no erasures succeeds and
returns the original message and the parity appended by the encoder. -/
theorem claim_C1_roundtrip :
    ∀ (message : List Nat) (r : Nat), allLt256 message → message.length ≤ 255 →
      message.length + r ≤ 255 → 1 ≤ r →
      ∃ parity, encode_message message r = message ++ parity ∧ parity.length = r ∧
        correct_message (encode_message message r) r [] = Except.ok (message, parity) := by
  intro msg r h1 _ h3 h4
  refine ⟨(gf_poly_div (msg ++ List.replicate r 0) (generate_generator_poly r)).2,
    encode_message_eq msg r, encode_remainder_length h4, ?_⟩
  rw [roundtrip h1 h3 h4, encode_message_drop]

/-- Witness for C1 at the concrete message `[1, 2, 3]` with `r = 2`. -/
theorem claim_C1_roundtrip_witness :
    (allLt256 [1, 2, 3] ∧ ([1, 2, 3] : List Nat).length ≤ 255 ∧
      ([1, 2, 3] : List Nat).length + 2 ≤ 255 ∧ 1 ≤ 2) ∧
    ∃ parity, encode_message [1, 2, 3] 2 = [1, 2, 3] ++ parity ∧ parity.length = 2 ∧
      correct_message (encode_message [1, 2, 3] 2) 2 [] = Except.ok ([1, 2, 3], parity) :=
  ⟨⟨by decide, by decide, by decide, by decide⟩,
    claim_C1_roundtrip [1, 2, 3] 2 (by decide) (by decide) (by decide) (by decide)⟩

/-- Counterexample to C1 as stated: with `r = 0` the encoder emits
`message ++ message` and the decoder returns `([], message ++ message)`, not
`(message, parity)`. -/
theorem claim_C1_counterexample :
    correct_message (encode_message [1] 0) 0 [] = Except.ok (([] : List Nat), [1, 1]) ∧
    correct_message (encode_message [1] 0) 0 [] ≠ Except.ok (([1] : List Nat), [1]) := by
  refine ⟨rfl, fun h => ?_⟩
  have hval : correct_message (encode_message [1] 0) 0 []
      = Except.ok (([] : List Nat), [1, 1]) := rfl
  rw [hval] at h
  simp at h

/-- C3 (amended: `r ≥ 1`).  Systematic encoding: output length is `k + r` and
the first `k` symbols are the message. -/
theorem claim_C3_systematic :
    ∀ (message : List Nat) (r : Nat), message.length + r ≤ 255 → 1 ≤ r →
      (encode_message message r).length = message.length + r ∧
      (encode_message message r).take message.length = message := by
  intro msg r _ hr
  exact ⟨encode_message_length hr, encode_message_take msg r⟩

/-- Witness for C3 at `[5, 6]` with `r = 3`. -/
theorem claim_C3_systematic_witness :
    (([5, 6] : List Nat).length + 3 ≤ 255 ∧ 1 ≤ 3) ∧
    ((encode_message [5, 6] 3).length = ([5, 6] : List Nat).length + 3 ∧
      (encode_message [5, 6] 3).take ([5, 6] : List Nat).length = [5, 6]) :=
  ⟨⟨by decide, by decide⟩, claim_C3_systematic [5, 6] 3 (by decide) (by decide)⟩

/-- Counterexample to C3 as stated: with `r = 0` the encoder appends the whole
message as "parity", so the output length is `2k`, not `k`. -/
theorem claim_C3_counterexample :
    encode_message [1] 0 = [1, 1] ∧ (encode_message [1] 0).length ≠ ([1] : List Nat).length + 0 := by
  refine ⟨rfl, fun h => ?_⟩
  have hval : encode_message [1] 0 = [1, 1] := rfl
  rw [hval] at h
  simp at h

/-- C5 (amended): the length check precedes everything; the erasure-count
check fires (before any syndrome work) for in-range erasure lists, but only
after the erasure positions have been zeroed into the working copy. -/
theorem claim_C5_validation :
    ∀ (msg : List Nat) (r : Nat) (ep : List Nat),
      (msg.length > 255 → correct_message msg r ep = Except.error RSError.inputTooLong) ∧
      (¬ msg.length > 255 → (∀ e ∈ ep, e < msg.length) → ep.length > r →
        correct_message msg r ep = Except.error RSError.tooManyErasures) := by
  intro msg r ep
  exact ⟨fun h => correct_message_too_long h,
    fun h1 h2 h3 => correct_message_too_many_erasures h1 h2 h3⟩

/-- Witness for C5: three in-range erasures against `r = 1`. -/
theorem claim_C5_validation_witness :
    correct_message [0, 0, 0] 1 [0, 1] = Except.error RSError.tooManyErasures :=
  (claim_C5_validation [0, 0, 0] 1 [0, 1]).2 (by decide) (by decide) (by decide)

/-- Counterexample to C5 as stated: erasure positions are zeroed before the
erasure count is validated, so an out-of-range erasure position in an
oversized erasure list surfaces as an `IndexError`, not `TooManyErasures`. -/
theorem claim_C5_counterexample :
    correct_message (List.replicate 10 0) 2 [3, 4, 20] = Except.error RSError.indexError ∧
    correct_message (List.replicate 10 0) 2 [3, 4, 20]
      ≠ Except.error RSError.tooManyErasures := by
  refine ⟨rfl, fun h => ?_⟩
  have hval : correct_message (List.replicate 10 0) 2 [3, 4, 20]
      = Except.error RSError.indexError := rfl
  rw [hval] at h
  simp at h

/-- C4: at the failing input `synd = [1]`, `r = 1`, no erasures, the capacity
check `(errs - erase_count) * 2 + erase_count > r` fires and the embedded
`berlekamp_massey` reports the `Uncorrectable` failure value (the Python
source prints "Too many errors to correct" and terminates the process with
`exit(0)` instead of returning). -/
theorem claim_C4_capacity_failure :
    berlekamp_massey [1] 1 0 none = Except.error RSError.uncorrectable := rfl

/-- C9: `gf_pow 0 e = 1` for every integer exponent — `gf_log[0]` keeps its
initial value 0, so the exponent index is 0 and `gf_exp[0] = 1`; the call
never raises. -/
theorem claim_C9_pow_zero_base : ∀ e : Int, gf_pow 0 e = 1 :=
  gf_pow_zero_base

/-- C7: field laws on nonzero bytes: commutativity, associativity,
multiply-then-divide cancellation, self-inverse addition, and `x^255 = 1`. -/
theorem claim_C7_field_laws :
    ∀ x y z : Nat, 1 ≤ x → x ≤ 255 → 1 ≤ y → y ≤ 255 → 1 ≤ z → z ≤ 255 →
      gf_mul x y = gf_mul y x ∧
      gf_mul (gf_mul x y) z = gf_mul x (gf_mul y z) ∧
      gf_div (gf_mul x y) y = some x ∧
      x ^^^ x = 0 ∧
      gf_pow x 255 = 1 := by
  intro x y z hx1 hx2 hy1 hy2 _ _
  exact ⟨gf_mul_comm x y, gf_mul_assoc x y z,
    gf_div_mul_cancel (by omega) (by omega), Nat.xor_self x, gf_pow_255 x⟩

/-- Witness for C7 at `x = 3`, `y = 7`, `z = 200`. -/
theorem claim_C7_field_laws_witness :
    (1 ≤ 3 ∧ 3 ≤ 255 ∧ 1 ≤ 7 ∧ 7 ≤ 255 ∧ 1 ≤ 200 ∧ 200 ≤ 255) ∧
    (gf_mul 3 7 = gf_mul 7 3 ∧
      gf_mul (gf_mul 3 7) 200 = gf_mul 3 (gf_mul 7 200) ∧
      gf_div (gf_mul 3 7) 7 = some 3 ∧
      3 ^^^ 3 = 0 ∧
      gf_pow 3 255 = 1) :=
  ⟨⟨by decide, by decide, by decide, by decide, by decide, by decide⟩,
    claim_C7_field_laws 3 7 200 (by decide) (by decide) (by decide) (by decide) (by decide)
      (by decide)⟩

/-- Dividing and then multiplying back recovers the dividend. -/
theorem gf_div_then_mul {x y z : Nat} (hx : x < 256) (hy : y < 256) (hy0 : y ≠ 0)
    (h : gf_div x y = some z) : gf_mul z y = x := by
  by_cases hx0 : x = 0
  · subst hx0
    unfold gf_div at h
    rw [if_neg hy0, if_pos rfl] at h
    cases h
    rw [gf_zero_mul]
  · unfold gf_div at h
    rw [if_neg hy0, if_neg hx0] at h
    have hz : z = gf_exp.getD ((gf_log.getD x 0 + 255 - gf_log.getD y 0) % 255) 0 :=
      (Option.some_inj.mp h).symm
    have lx := gf_log_getD_lt x
    have ly := gf_log_getD_lt y
    have hidx : (gf_log.getD x 0 + 255 - gf_log.getD y 0) % 255 < 255 :=
      Nat.mod_lt _ (by omega)
    have hz0 : z ≠ 0 := by
      rw [hz]
      have := (gf_exp_bounds _ (by omega : (gf_log.getD x 0 + 255 - gf_log.getD y 0) % 255 < 512)).1
      omega
    rw [gf_mul_eq_exp_mod hz0 hy0, hz, gf_log_exp _ hidx, Nat.mod_add_mod,
        show gf_log.getD x 0 + 255 - gf_log.getD y 0 + gf_log.getD y 0
          = gf_log.getD x 0 + 255 from by omega,
        Nat.add_mod_right, Nat.mod_eq_of_lt lx]
    exact gf_exp_log x hx (by omega)

/-- C6: division fails exactly on a zero divisor; otherwise it returns 0 for a
zero dividend and the table formula for nonzero dividends, and the result is
the unique byte whose product with the divisor gives back the dividend. -/
theorem claim_C6_division :
    ∀ x y : Nat, x < 256 → y < 256 →
      ((gf_div x y = none ↔ y = 0) ∧
       (y ≠ 0 → x = 0 → gf_div x y = some 0) ∧
       (y ≠ 0 → x ≠ 0 → gf_div x y
          = some (gf_exp.getD ((gf_log.getD x 0 + 255 - gf_log.getD y 0) % 255) 0)) ∧
       (y ≠ 0 → ∃ z, gf_div x y = some z ∧ z < 256 ∧ gf_mul z y = x ∧
          ∀ w, w < 256 → gf_mul w y = x → w = z)) := by
  intro x y hx hy
  refine ⟨⟨fun h => ?_, fun h => by unfold gf_div; rw [if_pos h]⟩,
    fun hy0 hx0 => by unfold gf_div; rw [if_neg hy0, if_pos hx0],
    fun hy0 hx0 => by unfold gf_div; rw [if_neg hy0, if_neg hx0],
    fun hy0 => ?_⟩
  · by_contra hy0
    unfold gf_div at h
    rw [if_neg hy0] at h
    by_cases hx0 : x = 0
    · rw [if_pos hx0] at h
      cases h
    · rw [if_neg hx0] at h
      cases h
  · obtain ⟨z, hz⟩ : ∃ z, gf_div x y = some z := by
      unfold gf_div
      rw [if_neg hy0]
      by_cases hx0 : x = 0
      · rw [if_pos hx0]
        exact ⟨0, rfl⟩
      · rw [if_neg hx0]
        exact ⟨_, rfl⟩
    have hmul : gf_mul z y = x := gf_div_then_mul hx hy hy0 hz
    have hz256 : z < 256 := by
      unfold gf_div at hz
      rw [if_neg hy0] at hz
      by_cases hx0 : x = 0
      · rw [if_pos hx0] at hz
        cases hz
        omega
      · rw [if_neg hx0] at hz
        cases hz
        exact gf_exp_getD_lt _
    refine ⟨z, hz, hz256, hmul, fun w hw hwmul => ?_⟩
    exact gf_mul_right_cancel hw hz256 hy0 (hwmul.trans hmul.symm)

/-- Witness for C6 at `x = 6`, `y = 3`. -/
theorem claim_C6_division_witness :
    ((6 : Nat) < 256 ∧ (3 : Nat) < 256) ∧
    ((gf_div 6 3 = none ↔ (3 : Nat) = 0) ∧
     ((3 : Nat) ≠ 0 → (6 : Nat) = 0 → gf_div 6 3 = some 0) ∧
     ((3 : Nat) ≠ 0 → (6 : Nat) ≠ 0 → gf_div 6 3
        = some (gf_exp.getD ((gf_log.getD 6 0 + 255 - gf_log.getD 3 0) % 255) 0)) ∧
     ((3 : Nat) ≠ 0 → ∃ z, gf_div 6 3 = some z ∧ z < 256 ∧ gf_mul z 3 = 6 ∧
        ∀ w, w < 256 → gf_mul w 3 = 6 → w = z)) :=
  ⟨⟨by decide, by decide⟩, claim_C6_division 6 3 (by decide) (by decide)⟩

/-- C8 (amended): the remainder has length `len(divisor) - 1` whenever the
divisor has at least two coefficients and the dividend at least
`len(divisor) - 1`. -/
theorem claim_C8_remainder_length :
    ∀ (dividend divisor : List Nat), 2 ≤ divisor.length →
      divisor.length - 1 ≤ dividend.length →
      ((gf_poly_div dividend divisor).2).length = divisor.length - 1 := by
  intro D g hg hD
  rw [gf_poly_div_remainder hg hD, List.length_drop, pdivGo_length (by omega) _ 0 D (by omega)]
  omega

/-- Witness for C8 at dividend `[5, 6, 7]`, divisor `[1, 2]`. -/
theorem claim_C8_remainder_length_witness :
    (2 ≤ ([1, 2] : List Nat).length ∧ ([1, 2] : List Nat).length - 1 ≤ ([5, 6, 7] : List Nat).length) ∧
    ((gf_poly_div [5, 6, 7] [1, 2]).2).length = ([1, 2] : List Nat).length - 1 :=
  ⟨⟨by decide, by decide⟩, claim_C8_remainder_length [5, 6, 7] [1, 2] (by decide) (by decide)⟩

/-- Counterexample to C8 as stated: for the length-1 divisor `[1]` Python
splits at `-(len - 1) = 0`, returning the whole worked message as the
remainder, so the remainder length is 1, not `len(divisor) - 1 = 0`. -/
theorem claim_C8_counterexample :
    (gf_poly_div [1] [1]).2 = [1] ∧
    ((gf_poly_div [1] [1]).2).length ≠ ([1] : List Nat).length - 1 := by
  refine ⟨rfl, fun h => ?_⟩
  have hval : ((gf_poly_div [1] [1]).2).length = 1 := rfl
  rw [hval] at h
  simp at h

set_option maxRecDepth 1000000 in
/-- C2's concrete scenario at the repository driver's corruption values:
encode the 8-symbol demo message with `r = 12`, overwrite positions 0, 1, 6, 3
with 12, 101, 15, 8, mark position 7 as an erasure, and decode back to the
original message and parity.  (Established by evaluation.) -/
theorem rs_decode_demo :
    correct_message
      (((((encode_message [66, 195, 213, 196, 122, 195, 82, 208] 12).set 0 12).set 1 101).set 6
        15).set 3 8) 12 [7]
    = Except.ok ([66, 195, 213, 196, 122, 195, 82, 208],
        [68, 151, 147, 235, 83, 126, 242, 88, 155, 115, 106, 5]) := rfl

end RS

